import Mathlib

/-!
Verification of the Pulse module-extraction pipeline.

This file gives a shallow embedding, in Lean 4, of the core of the
crawl-and-infer pipeline (src/cleaner.py, src/inference.py, src/utils.py,
src/crawler.py) and proves the stated properties about it.

Modelling conventions:
  * Python strings are Lean `String`s; character-level operations work on
    `String.toList`.  Python's `str.strip` / `str.split` / `str.lower`
    are modelled by `pyStrip` / `pySplitWs` / `String.toLower` (the
    whitespace set follows Python's unicode whitespace table; `toLower`
    is ASCII, which is exact on the ASCII titles the pipeline handles).
  * Python floats are modelled as exact rationals `ℚ`.  Every numeric
    literal used by the code (0.6, 0.5, 0.2, 0.1, 0.01, 0.3, 0.95, 0.8)
    is a short decimal, and the scores are clamped through `min`/`max`
    with such literals, so the stated bounds are insensitive to the
    float/rational distinction.
  * Python dicts (insertion ordered) are modelled as association lists
    with in-place update; Python sets (used only for source-URL
    accumulation, whose iteration order the code immediately dedups) are
    modelled as insertion-ordered duplicate-free lists.
  * The external collaborators (the HTTP transport, and BeautifulSoup's
    HTML parsing used by `strip_noise`/`extract_text_blocks` and
    `extract_links`) are not this repository's code; following the
    specification they are treated at their boundary: the document
    structurer and inference engine are embedded from the ordered
    `(tag, text)` block sequence onwards, and the crawler is embedded
    parametrically in its `fetch`/`extract_links` capabilities.
-/

/-! ### Python-style string primitives -/

/-- Python's notion of string whitespace (the unicode White_Space
characters recognised by `str.strip` / `str.split`). -/
def pyIsSpace (c : Char) : Bool :=
  let n := c.toNat
  decide ((9 ≤ n ∧ n ≤ 13) ∨ (28 ≤ n ∧ n ≤ 31) ∨ n = 32 ∨ n = 0x85 ∨ n = 0xa0 ∨
    n = 0x1680 ∨ (0x2000 ≤ n ∧ n ≤ 0x200a) ∨ n = 0x2028 ∨ n = 0x2029 ∨
    n = 0x202f ∨ n = 0x205f ∨ n = 0x3000)

/-- Python `s.strip()`. -/
def pyStrip (s : String) : String :=
  String.mk (((s.toList.dropWhile pyIsSpace).reverse.dropWhile pyIsSpace).reverse)

/-- Python `s.split()` (split on whitespace runs, dropping empty pieces). -/
def pySplitWs (s : String) : List String :=
  let p := s.toList.foldr
    (fun c (acc : List Char × List String) =>
      if pyIsSpace c then
        ([], if acc.1 = [] then acc.2 else String.mk acc.1 :: acc.2)
      else (c :: acc.1, acc.2))
    ([], [])
  if p.1 = [] then p.2 else String.mk p.1 :: p.2

/-- Python `s[:n]` (first `n` characters). -/
def takeChars (s : String) (n : Nat) : String :=
  String.mk (s.toList.take n)

/-- Python `s.lower()` (ASCII case mapping; exact on ASCII input). -/
def toLowerM (s : String) : String :=
  String.mk (s.toList.map Char.toLower)

/-- Python `s.startswith(p)`. -/
def startsWithM (s p : String) : Bool :=
  p.toList.isPrefixOf s.toList

/-- Python `s.split(sep)` for a one-character separator, keeping empty
pieces (`"".split("/") == [""]`). -/
def splitCharM (sep : Char) (s : String) : List String :=
  (s.toList.foldr
    (fun c acc =>
      match acc with
      | h :: t => if c = sep then [] :: h :: t else (c :: h) :: t
      | [] => [[c]])
    [[]]).map String.mk

namespace Pulse

/-! ### Data model (src/models.py) -/

/-- `Section` dataclass from src/models.py. -/
inductive Section : Type where
  | mk (level : Nat) (title : String) (text : String) (children : List Section)
  deriving Repr

def Section.level : Section → Nat
  | .mk l _ _ _ => l

def Section.title : Section → String
  | .mk _ t _ _ => t

def Section.text : Section → String
  | .mk _ _ tx _ => tx

def Section.children : Section → List Section
  | .mk _ _ _ cs => cs

/-! ### Document structurer (src/cleaner.py) -/

/-- The `level_map` of `build_sections`. -/
def level_map (tag : String) : Option Nat :=
  if tag = "h1" then some 1
  else if tag = "h2" then some 2
  else if tag = "h3" then some 3
  else if tag = "h4" then some 4
  else none

/-- Attach a closed section `f` as the last child of the enclosing open
section `p`.  The Python code attaches a section to its parent at creation
time through shared mutable references; equivalently (children are never
read while a section is still open) this embedding attaches each section
when it is closed, which keeps the state purely functional. -/
def attachChild (p f : Section) : Section :=
  match p with
  | .mk l t tx cs => .mk l t tx (cs ++ [f])

/-- The `while stack and stack[-1].level >= level: stack.pop()` loop,
walking the stack from the innermost open section `f` outwards. -/
def popGEAux (lvl : Nat) (root : List Section) (f : Section) :
    List Section → List Section × List Section
  | [] => if lvl ≤ f.level then (root ++ [f], []) else (root, [f])
  | p :: rest =>
      if lvl ≤ f.level then popGEAux lvl root (attachChild p f) rest
      else (root, f :: p :: rest)

def popGE (lvl : Nat) : List Section × List Section → List Section × List Section
  | (root, []) => (root, [])
  | (root, f :: rest) => popGEAux lvl root f rest

/-- One iteration of the `for tag, text in blocks` loop of `build_sections`. -/
def stepBlock (st : List Section × List Section) (b : String × String) :
    List Section × List Section :=
  match level_map b.1 with
  | some lvl =>
      let (root, stack) := popGE lvl st
      (root, Section.mk lvl b.2 "" [] :: stack)
  | none =>
      match st with
      | (root, Section.mk tl tt ttx tcs :: rest) =>
          (root, Section.mk tl tt (if ttx = "" then b.2 else ttx ++ " " ++ b.2) tcs :: rest)
      | (root, []) =>
          (root ++ [Section.mk 1 "Overview" b.2 []], [])

/-- Close every still-open section at the end of the block list. -/
def closeAllAux (root : List Section) (f : Section) : List Section → List Section
  | [] => root ++ [f]
  | p :: rest => closeAllAux root (attachChild p f) rest

def closeAll : List Section × List Section → List Section
  | (root, []) => root
  | (root, f :: rest) => closeAllAux root f rest

/-- `build_sections` from src/cleaner.py. -/
def build_sections (blocks : List (String × String)) : List Section :=
  closeAll (blocks.foldl stepBlock ([], []))

/-- Sentence splitting of `summarize_text`:
`re.split(r"(?<=[.!?])\s+", text)` splits at every maximal whitespace run
immediately preceded by one of `.`, `!`, `?`. -/
def isSentEnd (c : Char) : Bool :=
  c = '.' || c = '!' || c = '?'

/-- Single pass over the characters.  State: `skip` is true while consuming
the remainder of a separator whitespace run, `cur` is the current piece
(reversed).  A separator starts at a whitespace character whose immediate
predecessor (the head of `cur`) is a sentence-ending character. -/
def sentRun (skip : Bool) (cur : List Char) : List Char → List (List Char)
  | [] => [cur.reverse]
  | c :: rest =>
      if skip then
        if pyIsSpace c then sentRun true cur rest
        else sentRun false [c] rest
      else
        if pyIsSpace c && (match cur with | p :: _ => isSentEnd p | [] => false) then
          cur.reverse :: sentRun true [] rest
        else sentRun false (c :: cur) rest

/-- The sentence pieces of `text.strip()`. -/
def pySentences (text : String) : List String :=
  (sentRun false [] (pyStrip text).toList).map String.mk

/-- `summarize_text` from src/cleaner.py. -/
def summarize_text (text : String) (max_sentences : Nat) : String :=
  if pyStrip text = "" then ""
  else
    let sentences := (pySentences text).filter (fun s => 3 ≤ (pySplitWs s).length)
    let fallback := pyStrip (takeChars text 200) ++ (if 200 < text.length then "..." else "")
    if sentences ≠ [] then
      let summary := pyStrip (String.intercalate " " (sentences.take max_sentences))
      if summary ≠ "" then summary else fallback
    else fallback

example : build_sections [("p", "Some text")] = [Section.mk 1 "Overview" "Some text" []] := rfl
example :
    build_sections
      [("h1", "Module 1"), ("p", "Description"), ("h2", "Submodule 1.1"),
       ("p", "Sub description"), ("h1", "Module 2")] =
    [Section.mk 1 "Module 1" "Description"
       [Section.mk 2 "Submodule 1.1" "Sub description" []],
     Section.mk 1 "Module 2" "" []] := rfl
example : summarize_text "" 2 = "" := rfl
example : summarize_text "   " 2 = "" := rfl
example : summarize_text "Short." 2 = "Short." := rfl
example :
    summarize_text "First sentence here. Second sentence here. Third sentence here." 2 =
    "First sentence here. Second sentence here." := rfl

/-! ### URL normalizer (src/utils.py)

`normalize_url` delegates URL syntax to `urllib.parse` (`urlparse`,
`urljoin`).  That library is an external collaborator of the repository;
it is modelled here following its documented RFC 3986 behaviour
(scheme recognition, `//netloc`, first-`#` fragment split, first-`?`
query split, `;params` on the last path segment, relative-reference
resolution and dot-segment removal).  WHATWG control-character stripping
performed by some Python patch levels is not modelled. -/

/-- `dedupe_preserve_order` from src/utils.py. -/
def dedupe_preserve_order (items : List String) : List String :=
  items.foldl (fun acc item => if item ∈ acc then acc else acc ++ [item]) []

def isSchemeChar (c : Char) : Bool :=
  c.isAlpha || c.isDigit || c = '+' || c = '-' || c = '.'

structure UrlParts where
  scheme : String
  netloc : String
  path : String
  params : String
  query : String
  fragment : String
  deriving Repr, DecidableEq

/-- Split `l` at the first occurrence of `c` (the separator is dropped);
`(l, [])` when `c` does not occur.  Models Python `s.split(c, 1)`. -/
def splitOnceAt (c : Char) (l : List Char) : List Char × List Char :=
  if c ∈ l then (l.takeWhile (· ≠ c), (l.dropWhile (· ≠ c)).tail)
  else (l, [])

/-- The netloc extends up to the first `/`, `?` or `#`. -/
def isNetlocEnd (c : Char) : Bool :=
  c = '/' || c = '?' || c = '#'

/-- Scheme recognition of `urlsplit`: a leading `scheme:` whose name is
nonempty, starts with a letter and uses only scheme characters is split
off and lowercased; otherwise the default applies. -/
def schemeSplit (cs : List Char) (default : String) : String × List Char :=
  match cs.findIdx? (· = ':') with
  | some i =>
      if decide (0 < i) && (match cs with | c0 :: _ => c0.isAlpha | [] => false) &&
          (cs.take i).all isSchemeChar then
        (toLowerM (String.mk (cs.take i)), cs.drop (i + 1))
      else (default, cs)
  | none => (default, cs)

/-- Netloc recognition of `urlsplit`: after `//`, up to the first
`/`, `?` or `#`. -/
def netlocSplit (rest : List Char) : List Char × List Char :=
  if rest.take 2 = ['/', '/'] then
    ((rest.drop 2).takeWhile (fun c => ¬ isNetlocEnd c),
     (rest.drop 2).dropWhile (fun c => ¬ isNetlocEnd c))
  else ([], rest)

/-- Model of `urllib.parse.urlsplit(url, scheme=default)`. -/
def urlsplitM (url : String) (default : String) : UrlParts :=
  let sr := schemeSplit url.toList default
  let nr := netlocSplit sr.2
  let rf := splitOnceAt '#' nr.2
  let pq := splitOnceAt '?' rf.1
  ⟨sr.1, String.mk nr.1, String.mk pq.1, "", String.mk pq.2, String.mk rf.2⟩

/-- `;params` split on the last path segment (`urllib.parse._splitparams`). -/
def splitParams (path : List Char) : List Char × List Char :=
  if ';' ∈ path then
    if '/' ∈ path then
      -- search for ';' starting at the position of the last '/'
      let slashIdx := path.length - 1 - (path.reverse.takeWhile (· ≠ '/')).length
      match (path.drop slashIdx).findIdx? (· = ';') with
      | some j =>
          let i := slashIdx + j
          (path.take i, path.drop (i + 1))
      | none => (path, [])
    else
      (path.takeWhile (· ≠ ';'), (path.dropWhile (· ≠ ';')).tail)
  else (path, [])

/-- Model of `urllib.parse.urlparse(url, scheme=default)`. -/
def urlparseM (url : String) (default : String) : UrlParts :=
  let u := urlsplitM url default
  let (path, params) := splitParams u.path.toList
  { u with path := String.mk path, params := String.mk params }

/-- Model of `urllib.parse.urlunsplit` (params already folded into path). -/
def urlunsplitM (scheme netloc path query fragment : String) : String :=
  let url0 := path
  let url1 :=
    if netloc ≠ "" ∨ (url0 ≠ "" ∧ startsWithM url0 "//") then
      "//" ++ netloc ++ (if url0 ≠ "" ∧ ¬ startsWithM url0 "/" then "/" ++ url0 else url0)
    else url0
  let url2 := if scheme ≠ "" then scheme ++ ":" ++ url1 else url1
  let url3 := if query ≠ "" then url2 ++ "?" ++ query else url2
  if fragment ≠ "" then url3 ++ "#" ++ fragment else url3

/-- Model of `urllib.parse.urlunparse`. -/
def urlunparseM (u : UrlParts) : String :=
  urlunsplitM u.scheme u.netloc
    (if u.params ≠ "" then u.path ++ ";" ++ u.params else u.path) u.query u.fragment

def uses_relative : List String :=
  ["", "ftp", "http", "gopher", "nntp", "imap", "wais", "file", "https", "shttp",
   "mms", "prospero", "rtsp", "rtspu", "sftp", "svn", "svn+ssh", "ws", "wss"]

def uses_netloc : List String :=
  ["", "ftp", "http", "gopher", "nntp", "telnet", "imap", "wais", "file", "mms",
   "https", "shttp", "snews", "prospero", "rtsp", "rtspu", "rsync", "svn",
   "svn+ssh", "sftp", "nfs", "git", "git+ssh", "ws", "wss"]

/-- Keep the first and last element, drop empty strings in between
(`segments[1:-1] = filter(None, segments[1:-1])`). -/
def filterMiddle (l : List String) : List String :=
  match l with
  | [] => []
  | [a] => [a]
  | a :: b :: rest =>
      a :: (((b :: rest).dropLast.filter (· ≠ "")) ++ [(b :: rest).getLast (by simp)])

/-- Dot-segment resolution loop of `urljoin`. -/
def resolveSegments (segments : List String) : List String :=
  segments.foldl
    (fun acc seg =>
      if seg = ".." then acc.dropLast
      else if seg = "." then acc
      else acc ++ [seg])
    []

/-- Model of `urllib.parse.urljoin`. -/
def urljoinM (base url : String) : String :=
  if base = "" then url
  else if url = "" then base
  else
    let b := urlparseM base ""
    let u := urlparseM url b.scheme
    if u.scheme ≠ b.scheme ∨ u.scheme ∉ uses_relative then url
    else
      let step :=
        if u.scheme ∈ uses_netloc then
          (if u.netloc ≠ "" then none else some b.netloc)
        else some u.netloc
      match step with
      | none => urlunparseM u
      | some netloc =>
          if u.path = "" ∧ u.params = "" then
            urlunparseM { u with netloc := netloc, path := b.path, params := b.params,
                                 query := if u.query = "" then b.query else u.query }
          else
            let baseParts0 := splitCharM '/' b.path
            let baseParts :=
              if baseParts0.getLast? ≠ some "" then baseParts0.dropLast else baseParts0
            let segments :=
              if startsWithM u.path "/" then splitCharM '/' u.path
              else filterMiddle (baseParts ++ splitCharM '/' u.path)
            let resolved := resolveSegments segments
            let resolved :=
              if segments.getLast? = some "." ∨ segments.getLast? = some ".." then
                resolved ++ [""]
              else resolved
            let joined := String.intercalate "/" resolved
            urlunparseM { u with netloc := netloc,
                                 path := if joined = "" then "/" else joined }

/-- `normalize_url` from src/utils.py. -/
def normalize_url (base_url link : String) : String :=
  let joined := urljoinM base_url link
  let parsed := urlparseM joined ""
  if parsed.scheme ≠ "http" ∧ parsed.scheme ≠ "https" then ""
  else urlunparseM { parsed with fragment := "" }

example : normalize_url "https://a.com" "https://a.com/p#x" = "https://a.com/p" := rfl
example : normalize_url "https://a.com/docs/guide" "../api/ref#frag" = "https://a.com/api/ref" := rfl
example : normalize_url "https://a.com" "mailto:x@y.com" = "" := rfl
example : normalize_url "https://a.com/base/" "sub/page?q=1#sec" = "https://a.com/base/sub/page?q=1" := rfl
example : normalize_url "https://a.com" "javascript:void(0)" = "" := rfl

/-! ### Inference engine (src/inference.py) -/

/-- `normalize_title` from src/inference.py
(`" ".join(title.lower().split())`). -/
def normalize_title (title : String) : String :=
  String.intercalate " " (pySplitWs (toLowerM title))

def noiseWords1 : List String :=
  ["home", "menu", "search", "login", "sign", "account", "profile", "settings",
   "help", "support", "contact", "about", "privacy", "terms", "cookie"]

def noiseWords2 : List String :=
  ["skip", "jump", "back", "next", "previous", "top", "bottom"]

/-- Match of the anchored pattern `^(page \d+|page\d+|\d+ of \d+)`
(ASCII digits; the `\d+` groups are maximal-munch, which for these
patterns is equivalent to full backtracking). -/
def pagePattern (s : String) : Bool :=
  let cs := s.toList
  (match cs with
   | 'p' :: 'a' :: 'g' :: 'e' :: ' ' :: c :: _ => c.isDigit
   | _ => false) ||
  (match cs with
   | 'p' :: 'a' :: 'g' :: 'e' :: c :: _ => c.isDigit
   | _ => false) ||
  (match cs with
   | c :: rest =>
      c.isDigit &&
        (match rest.dropWhile Char.isDigit with
         | ' ' :: 'o' :: 'f' :: ' ' :: d :: _ => d.isDigit
         | _ => false)
   | [] => false)

/-- `is_valid_module_title` from src/inference.py.  The three
`re.match(...)` noise patterns are alternations of literal prefixes plus
the page-number pattern above. -/
def is_valid_module_title (title : String) : Bool :=
  if title.length < 3 then false
  else
    let tl := pyStrip (toLowerM title)
    ¬ (noiseWords1.any (fun w => startsWithM tl w) ||
       noiseWords2.any (fun w => startsWithM tl w) ||
       pagePattern tl)

example : is_valid_module_title "User Management" = true := rfl
example : is_valid_module_title "API Documentation" = true := rfl
example : is_valid_module_title "" = false := rfl
example : is_valid_module_title "Hi" = false := rfl
example : is_valid_module_title "Login" = false := rfl
example : is_valid_module_title "Home" = false := rfl
example : is_valid_module_title "Skip to content" = false := rfl
example : is_valid_module_title "Page 3" = false := rfl
example : is_valid_module_title "3 of 7" = false := rfl

/-! #### `difflib.SequenceMatcher` (standard library collaborator)

`merge_similar_titles` scores similarity with
`SequenceMatcher(None, a, b).ratio()`: the Ratcliff–Obershelp measure
`2*M/(len(a)+len(b))` where `M` is the total size of the recursively
collected maximal matching blocks.  It is modelled here at the character
level, including the `autojunk` heuristic (for `len(b) >= 200`, characters
occurring more than `len(b)//100 + 1` times in `b` are excluded from the
block-finding table, while the equality-based edge extension still
crosses them; there is no user junk predicate). -/

/-- Characters `autojunk` removes from the index of `b`. -/
def isPopular (b : List Char) (c : Char) : Bool :=
  decide (200 ≤ b.length) && decide (b.length / 100 + 1 < b.count c)

/-- Equality of two optional characters, false when either is absent. -/
def charEq : Option Char → Option Char → Bool
  | some x, some y => x = y
  | _, _ => false

/-- One row of the `j2len` dynamic program of `find_longest_match`:
entry `jr` is the length of the common suffix of `a[..i]` and
`b[..blo+jr]` (`0` on junk or mismatch). -/
def flmRow (a b : List Char) (isJunk : Char → Bool) (i blo bhi : Nat)
    (prev : List Nat) : List Nat :=
  (List.range (bhi - blo)).map fun jr =>
    let j := blo + jr
    if charEq a[i]? b[j]? && !(match b[j]? with | some c => isJunk c | none => true) then
      (if jr = 0 then 0 else prev.getD (jr - 1) 0) + 1
    else 0

/-- Best-block update while scanning row `i` left to right
(`if k > bestsize: besti, bestj, bestsize = i-k+1, j-k+1, k`). -/
def flmScan (i blo : Nat) (r : List Nat) (best : Nat × Nat × Nat) :
    Nat × Nat × Nat :=
  r.enum.foldl
    (fun acc p =>
      if acc.2.2 < p.2 then (i + 1 - p.2, blo + p.1 + 1 - p.2, p.2) else acc)
    best

/-- The dynamic-programming phase of `find_longest_match` over
`a[alo:ahi]` × `b[blo:bhi]`. -/
def flmDP (a b : List Char) (isJunk : Char → Bool) (alo ahi blo bhi : Nat) :
    Nat × Nat × Nat :=
  ((List.range (ahi - alo)).foldl
    (fun (acc : (Nat × Nat × Nat) × List Nat) ir =>
      let i := alo + ir
      let r := flmRow a b isJunk i blo bhi acc.2
      (flmScan i blo r acc.1, r))
    ((alo, blo, 0), [])).1

/-- Backward extension of the best block over plainly equal characters
(the user-junk predicate is `None`, so `isbjunk` is constantly false and
the subsequent junk-extension loops are no-ops). -/
def extendBack (a b : List Char) (alo blo : Nat) :
    Nat → Nat → Nat → Nat × Nat × Nat
  | 0, bestj, k => (0, bestj, k)
  | bi + 1, bestj, k =>
    if alo < bi + 1 ∧ blo < bestj ∧ charEq a[bi]? b[bestj - 1]? then
      extendBack a b alo blo bi (bestj - 1) (k + 1)
    else (bi + 1, bestj, k)

/-- Forward extension of the best block over plainly equal characters.
The loop increments `k` while `besti+k < ahi` (among other guards), so the
counter `fuel = ahi - (besti + k)` is an exact structural rendering: when
it is `0` the guard is false as well. -/
def extendFwdAux (a b : List Char) (ahi bhi besti bestj : Nat) :
    Nat → Nat → Nat
  | 0, k => k
  | fuel + 1, k =>
    if besti + k < ahi ∧ bestj + k < bhi ∧ charEq a[besti + k]? b[bestj + k]? then
      extendFwdAux a b ahi bhi besti bestj fuel (k + 1)
    else k

def extendFwd (a b : List Char) (ahi bhi besti bestj k : Nat) : Nat :=
  extendFwdAux a b ahi bhi besti bestj (ahi - (besti + k)) k

/-- `SequenceMatcher.find_longest_match` on `a[alo:ahi]` × `b[blo:bhi]`. -/
def find_longest_match (a b : List Char) (isJunk : Char → Bool)
    (alo ahi blo bhi : Nat) : Nat × Nat × Nat :=
  let (i, j, k) := flmDP a b isJunk alo ahi blo bhi
  let (i2, j2, k2) := extendBack a b alo blo i j k
  (i2, j2, extendFwd a b ahi bhi i2 j2 k2)

/-- Total size of all matching blocks (`get_matching_blocks` recursion;
`ratio` only needs the sum of the block sizes).  On every reachable call
the two intervals shrink strictly, so fuel `len(a)+len(b)+1` is never
exhausted; it only serves as a structural termination argument. -/
def matchSum (a b : List Char) (isJunk : Char → Bool) :
    Nat → Nat → Nat → Nat → Nat → Nat
  | 0, _, _, _, _ => 0
  | fuel + 1, alo, ahi, blo, bhi =>
    let (i, j, k) := find_longest_match a b isJunk alo ahi blo bhi
    if k = 0 then 0
    else
      k + matchSum a b isJunk fuel alo i blo j +
        matchSum a b isJunk fuel (i + k) ahi (j + k) bhi

/-- Total match size over the full strings (the sum `M` of the sizes of
all matching blocks); `Nat`-valued, hence directly computable. -/
def matchTotal (aS bS : String) : Nat :=
  let a := aS.toList
  let b := bS.toList
  matchSum a b (isPopular b) (a.length + b.length + 1) 0 a.length 0 b.length

/-- `SequenceMatcher(None, a, b).ratio()` as an exact rational
(`2.0 * M / T`, or `1.0` when `T == 0`). -/
def sm_ratio (aS bS : String) : ℚ :=
  if aS.toList.length + bS.toList.length = 0 then 1
  else (2 * matchTotal aS bS : ℚ) / ((aS.toList.length : ℚ) + (bS.toList.length : ℚ))

example : matchTotal "abc" "abc" = 3 := rfl
example : matchTotal "abcd" "bcde" = 3 := rfl
example : matchTotal "abxcd" "abcd" = 4 := rfl
example : matchTotal "" "" = 0 := rfl

/-! #### Title merging -/

/-- Insertion-ordered dict update (`d[k] = v`). -/
def dictSet (d : List (String × String)) (k v : String) : List (String × String) :=
  if d.any (·.1 = k) then d.map (fun p => if p.1 = k then (k, v) else p)
  else d ++ [(k, v)]

/-- Dict lookup (`d[k]`, as an option). -/
def dictGet (d : List (String × String)) (k : String) : Option String :=
  (d.find? (·.1 = k)).map (·.2)

/-- Inner loop of `merge_similar_titles`: compare `title1` against every
later title, unifying a similar pair under the shorter of the two. -/
def mstInner (threshold : ℚ) (title1 : String) :
    List String → List (String × String) → List (String × String)
  | [], d => d
  | title2 :: rest, d =>
      let d' :=
        if threshold ≤ sm_ratio (normalize_title title1) (normalize_title title2) then
          let canonical_title := if title1.length ≤ title2.length then title1 else title2
          dictSet (dictSet d title1 canonical_title) title2 canonical_title
        else d
      mstInner threshold title1 rest d'

/-- Outer loop of `merge_similar_titles`
(`for i, title1 in enumerate(titles): for title2 in titles[i+1:]`). -/
def mstOuter (threshold : ℚ) :
    List String → List (String × String) → List (String × String)
  | [], d => d
  | title1 :: rest, d => mstOuter threshold rest (mstInner threshold title1 rest d)

/-- `merge_similar_titles` from src/inference.py, returning the
original-to-canonical mapping as an insertion-ordered dict. -/
def merge_similar_titles (titles : List String) (threshold : ℚ) :
    List (String × String) :=
  mstOuter threshold titles (titles.foldl (fun d t => dictSet d t t) [])

/-! #### Descriptions and confidence -/

/-- `Submodule` dataclass from src/models.py (confidence as exact `ℚ`). -/
structure Submodule where
  name : String
  description : String
  source_urls : List String
  confidence : ℚ

/-- `Module` dataclass from src/models.py. -/
structure Module where
  name : String
  description : String
  submodules : List Submodule
  source_urls : List String
  confidence : ℚ

/-- `module_description` from src/inference.py. -/
def module_description (sec : Section) : String :=
  let content := pyStrip sec.text
  let child_texts :=
    (sec.children.take 5).filterMap
      (fun child => if pyStrip child.text ≠ "" then some (pyStrip child.text) else none)
  let full_content := String.intercalate " " (content :: child_texts)
  if pyStrip full_content = "" then "Module for " ++ sec.title ++ "."
  else summarize_text full_content 3

/-- `submodule_description` from src/inference.py. -/
def submodule_description (sec : Section) : String :=
  if pyStrip sec.text ≠ "" then summarize_text sec.text 2
  else "Functionality related to " ++ sec.title ++ "."

/-- `calculate_confidence` from src/inference.py. -/
def calculate_confidence (sec : Section) (is_module : Bool) : ℚ :=
  let base : ℚ := if is_module then 0.6 else 0.5
  let text_length : ℚ := ((pySplitWs sec.text).length : ℚ)
  let length_bonus := min 0.2 (text_length * 0.01)
  let structure_bonus : ℚ := if sec.children.isEmpty then 0 else 0.1
  let title_penalty : ℚ := if (pySplitWs sec.title).length < 2 then 0.1 else 0
  min 0.95 (max 0.3 (base + length_bonus + structure_bonus - title_penalty))

/-! #### `infer_modules` -/

/-- `infer_from_sections`: group the root sections of one page by title,
dropping invalid titles (`defaultdict(list)` keyed in first-touch order). -/
def groupAdd (g : List (String × List Section)) (k : String) (v : List Section) :
    List (String × List Section) :=
  if g.any (·.1 = k) then g.map (fun p => if p.1 = k then (p.1, p.2 ++ v) else p)
  else g ++ [(k, v)]

def infer_from_sections (sections : List Section) :
    List (String × List Section) :=
  sections.foldl
    (fun grouped sec =>
      if is_valid_module_title sec.title then groupAdd grouped sec.title [sec]
      else grouped)
    []

/-- Insertion-ordered model of a Python `set` of strings. -/
def setAdd (s : List String) (x : String) : List String :=
  if x ∈ s then s else s ++ [x]

def setUnion (s t : List String) : List String :=
  t.foldl setAdd s

/-- `section_sources[title].add(url)` on an assoc list of sets. -/
def sourceAdd (ss : List (String × List String)) (k url : String) :
    List (String × List String) :=
  if ss.any (·.1 = k) then ss.map (fun p => if p.1 = k then (p.1, setAdd p.2 url) else p)
  else ss ++ [(k, [url])]

/-- `merged_sources[canonical].update(urls)` on an assoc list of sets. -/
def sourceUnionAdd (ss : List (String × List String)) (k : String)
    (urls : List String) : List (String × List String) :=
  if ss.any (·.1 = k) then
    ss.map (fun p => if p.1 = k then (p.1, setUnion p.2 urls) else p)
  else ss ++ [(k, setUnion [] urls)]

def sourcesGet (ss : List (String × List String)) (k : String) : List String :=
  ((ss.find? (·.1 = k)).map (·.2)).getD []

/-- First pass of `infer_modules` over the pages: accumulate
`module_sections` (valid level-≤2 root sections per title) and
`section_sources` (URLs contributing to each title).  A page enters the
pipeline as its ordered `(tag, text)` block list, i.e. at the boundary of
the BeautifulSoup collaborator inside `extract_sections`; everything from
`build_sections` onwards is repository code.  (The per-page
`try/except` of the source is vacuous here: all embedded functions are
total.  The dead accumulator `all_titles`, never read by the source after
being filled, is omitted.) -/
def collectPass (pages : List (String × List (String × String))) :
    List (String × List Section) × List (String × List String) :=
  pages.foldl
    (fun acc page =>
      let sections := build_sections page.2
      let grouped := infer_from_sections sections
      grouped.foldl
        (fun acc2 tg =>
          let valid_secs := tg.2.filter (fun s => s.level ≤ 2)
          if valid_secs.isEmpty then acc2
          else (groupAdd acc2.1 tg.1 valid_secs, sourceAdd acc2.2 tg.1 page.1))
        acc)
    ([], [])

def moduleSections (pages : List (String × List (String × String))) :
    List (String × List Section) :=
  (collectPass pages).1

def sectionSources (pages : List (String × List (String × String))) :
    List (String × List String) :=
  (collectPass pages).2

/-- Second pass: regroup by canonical titles
(`title_mapping[orig_title]`; the mapping is total on the keys, so the
`getD` default is never taken). -/
def mergedPass (ms : List (String × List Section))
    (ss : List (String × List String)) (mapping : List (String × String)) :
    List (String × List Section) × List (String × List String) :=
  ms.foldl
    (fun acc p =>
      let canonical := (dictGet mapping p.1).getD p.1
      (groupAdd acc.1 canonical p.2,
       sourceUnionAdd acc.2 canonical (sourcesGet ss p.1)))
    ([], [])

def mergedModules (pages : List (String × List (String × String))) :
    List (String × List Section) :=
  (mergedPass (moduleSections pages) (sectionSources pages)
    (merge_similar_titles ((moduleSections pages).map (·.1)) 0.8)).1

def mergedSources (pages : List (String × List (String × String))) :
    List (String × List String) :=
  (mergedPass (moduleSections pages) (sectionSources pages)
    (merge_similar_titles ((moduleSections pages).map (·.1)) 0.8)).2

/-- One `Submodule` built from a child section. -/
def mkSubmodule (child : Section) (srcs : List String) : Submodule :=
  ⟨child.title, submodule_description child, dedupe_preserve_order srcs,
   calculate_confidence child false⟩

/-- The submodule collection loop of `infer_modules`: children of every
contributing section, filtered (`level <= 4` and valid title),
deduplicated by exact title with the first occurrence winning. -/
def collectSubs (secs : List Section) (srcs : List String) : List Submodule :=
  (secs.foldl
    (fun (m : List (String × Submodule)) sec =>
      sec.children.foldl
        (fun m child =>
          if child.level ≤ 4 ∧ is_valid_module_title child.title then
            if m.any (·.1 = child.title) then m
            else m ++ [(child.title, mkSubmodule child srcs)]
          else m)
        m)
    []).map (·.2)

/-- Stable sort by descending confidence (`modules.sort(key=...,
reverse=True)`; Python's sort is stable, and any stable sort computes the
same list, so a structural insertion sort is used). -/
def insertDesc (m : Module) : List Module → List Module
  | [] => [m]
  | x :: xs => if x.confidence < m.confidence then m :: x :: xs else x :: insertDesc m xs

def sortByConfDesc (ms : List Module) : List Module :=
  ms.foldl (fun acc m => insertDesc m acc) []

/-- `infer_modules` from src/inference.py (pages given as ordered
`(url, blocks)` pairs, see `collectPass`). -/
def infer_modules (pages : List (String × List (String × String))) : List Module :=
  if pages = [] then []
  else
    let ms := moduleSections pages
    if ms.isEmpty then []
    else
      let modules :=
        (mergedModules pages).foldl
          (fun acc p =>
            match p.2 with
            | [] => acc
            | top_section :: _ =>
                let srcs := sourcesGet (mergedSources pages) p.1
                acc ++ [{ name := p.1,
                          description := module_description top_section,
                          submodules := collectSubs p.2 srcs,
                          source_urls := dedupe_preserve_order srcs,
                          confidence := calculate_confidence top_section true }])
          []
      sortByConfDesc modules

example : infer_modules [] = [] := rfl
example : infer_modules [("u", [])] = [] := rfl
example :
    ((infer_modules
        [("https://ex.com/d",
          [("h1", "User Management"), ("p", "Manage users."),
           ("h2", "Create User"), ("p", "How to create.")])]).map
      (fun m => (m.name, m.submodules.map (·.name), m.source_urls))) =
    [("User Management", ["Create User"], ["https://ex.com/d"])] := rfl

/-! ### Crawler (src/crawler.py)

`Crawler.crawl` is embedded parametrically in its collaborators:
`fetchFn` models `self.fetch` (network + cache; deterministic for a run),
`linksFn` models `self.extract_links`, and `isHttp` models the
`urlparse(url).scheme in {"http", "https"}` guard.  The claims proved
below hold for every instantiation of these capabilities. -/

/-- `Page` dataclass from src/crawler.py. -/
structure Page where
  url : String
  html : String
  status : Nat
  deriving Repr, DecidableEq

/-- The `while queue and len(pages) < self.max_pages` loop of
`Crawler.crawl`.  The queue is a FIFO of `(url, depth)` pairs (popped at
the head, appended at the tail), `visited` the visited set, `pages` the
accumulated result. -/
def crawlLoop (fetchFn : String → Option Page) (linksFn : String → Page → List String)
    (isHttp : String → Bool) (maxPages maxDepth : Nat) :
    List (String × Nat) → List String → List Page → List Page
  | [], _, pages => pages
  | (url, depth) :: rest, visited, pages =>
    if h : pages.length < maxPages then
      if url ∈ visited ∨ maxDepth < depth then
        crawlLoop fetchFn linksFn isHttp maxPages maxDepth rest visited pages
      else
        let visited' := url :: visited
        if ¬ isHttp url then
          crawlLoop fetchFn linksFn isHttp maxPages maxDepth rest visited' pages
        else
          match fetchFn url with
          | none => crawlLoop fetchFn linksFn isHttp maxPages maxDepth rest visited' pages
          | some page =>
              let newEntries :=
                ((linksFn url page).filter (fun l => l ∉ visited')).map (fun l => (l, depth + 1))
              crawlLoop fetchFn linksFn isHttp maxPages maxDepth (rest ++ newEntries)
                visited' (pages ++ [page])
    else pages
termination_by queue _ pages => (maxPages - pages.length, queue.length)
decreasing_by
  · exact Prod.Lex.right _ (Nat.lt_succ_self _)
  · exact Prod.Lex.right _ (Nat.lt_succ_self _)
  · exact Prod.Lex.right _ (Nat.lt_succ_self _)
  · exact Prod.Lex.left _ _ (by simp; omega)

/-- `Crawler.crawl` from src/crawler.py: seed the queue at depth 0 with
an empty visited set and no pages. -/
def crawl (fetchFn : String → Option Page) (linksFn : String → Page → List String)
    (isHttp : String → Bool) (maxPages maxDepth : Nat) (roots : List String) :
    List Page :=
  crawlLoop fetchFn linksFn isHttp maxPages maxDepth (roots.map (fun r => (r, 0))) [] []

/-- `Reach fetchFn linksFn roots d u`: URL `u` is reachable from the
seeds in `d` hops, following links extracted from successfully fetched
pages. -/
inductive Reach (fetchFn : String → Option Page)
    (linksFn : String → Page → List String) (roots : List String) :
    Nat → String → Prop
  | seed {u : String} : u ∈ roots → Reach fetchFn linksFn roots 0 u
  | step {d : Nat} {u l : String} {pg : Page} :
      Reach fetchFn linksFn roots d u → fetchFn u = some pg →
      l ∈ linksFn u pg → Reach fetchFn linksFn roots (d + 1) l


/-! ### Dict lemmas -/


theorem map_update_id (d : List (String × String)) (k v : String)
    (h : ¬ (d.any (·.1 = k) = true)) :
    d.map (fun p => if p.1 = k then (k, v) else p) = d := by
  induction d with
  | nil => rfl
  | cons p rest ih =>
    simp only [List.any_cons, Bool.or_eq_true, decide_eq_true_eq, not_or] at h
    rw [List.map_cons, if_neg h.1, ih (by simpa using h.2)]

theorem dictGet_dictSet_self (d : List (String × String)) (k v : String) :
    dictGet (dictSet d k v) k = some v := by
  unfold dictGet dictSet
  by_cases h : d.any (·.1 = k)
  · simp only [h, if_true]
    induction d with
    | nil => simp at h
    | cons p rest ih =>
      by_cases hp : p.1 = k
      · simp [List.find?, hp]
      · rw [List.map_cons, if_neg hp, List.find?]
        have hc : (decide (p.1 = k)) = false := by simp [hp]
        rw [hc]
        apply ih
        simp only [List.any_cons, Bool.or_eq_true, decide_eq_true_eq] at h
        rcases h with h' | h'
        · exact absurd h' hp
        · simpa using h'
  · simp only [h, if_false, Bool.false_eq_true]
    induction d with
    | nil => simp [List.find?]
    | cons p rest ih =>
      simp only [List.any_cons, Bool.or_eq_true, decide_eq_true_eq, not_or] at h
      rw [List.cons_append, List.find?]
      have hc : (decide (p.1 = k)) = false := by simp [h.1]
      rw [hc]
      exact ih (by simpa using h.2)

theorem dictGet_dictSet_ne (d : List (String × String)) (k v k2 : String)
    (h : k2 ≠ k) : dictGet (dictSet d k v) k2 = dictGet d k2 := by
  unfold dictGet dictSet
  by_cases hany : d.any (·.1 = k)
  · simp only [hany, if_true]
    induction d with
    | nil => simp
    | cons p rest ih =>
      by_cases hp : p.1 = k
      · rw [List.map_cons, if_pos hp, List.find?, List.find?]
        have h1 : (decide (k = k2)) = false := by simp [Ne.symm h]
        have h2 : (decide (p.1 = k2)) = false := by simp [hp, Ne.symm h]
        rw [h1, h2]
        by_cases hr : rest.any (·.1 = k)
        · exact ih hr
        · rw [map_update_id rest k v hr]
      · rw [List.map_cons, if_neg hp, List.find?, List.find?]
        by_cases hp2 : p.1 = k2
        · simp [hp2]
        · have hc : (decide (p.1 = k2)) = false := by simp [hp2]
          rw [hc]
          by_cases hr : rest.any (·.1 = k)
          · exact ih hr
          · exact absurd (by simpa [List.any_cons, hp] using hany) (by simpa using hr)
  · simp only [hany, if_false, Bool.false_eq_true]
    rw [List.find?_append]
    cases hf : List.find? (fun p => decide (p.1 = k2)) d with
    | some x => simp
    | none =>
      simp only [Option.none_or]
      rw [List.find?]
      have hc : (decide (k = k2)) = false := by simp [Ne.symm h]
      rw [hc]
      simp [List.find?]

/-! ### Claim theorems (first batch) -/

/-- C1: `infer_modules` is total on degenerate input: the empty mapping
yields `[]`, and any mapping whose pages yield no valid module candidates
after title filtering yields `[]` as well (never an error: every embedded
function is total). -/
theorem c1_infer_modules_degenerate :
    infer_modules [] = [] ∧
    ∀ pages, moduleSections pages = [] → infer_modules pages = [] := by
  refine ⟨rfl, ?_⟩
  intro pages h
  unfold infer_modules
  by_cases hp : pages = []
  · simp [hp]
  · simp [hp, h]

theorem c1_witness :
    moduleSections [("u", [])] = [] ∧ infer_modules [("u", [])] = [] :=
  ⟨rfl, c1_infer_modules_degenerate.2 [("u", [])] rfl⟩

/-- Helper for C3: on a heading-free block list the fold appends one
fresh "Overview" section per block and never opens a stack frame. -/
theorem foldl_stepBlock_textonly (blocks : List (String × String)) :
    ∀ root, (∀ b ∈ blocks, b.1 = "p" ∨ b.1 = "li") →
      blocks.foldl stepBlock (root, []) =
        (root ++ blocks.map (fun b => Section.mk 1 "Overview" b.2 []), []) := by
  induction blocks with
  | nil => intro root _; simp
  | cons b rest ih =>
    intro root h
    have hb := h b (by simp)
    have hlm : level_map b.1 = none := by
      rcases hb with hb | hb <;> rw [hb] <;> rfl
    have hstep : stepBlock (root, []) b = (root ++ [Section.mk 1 "Overview" b.2 []], []) := by
      unfold stepBlock; rw [hlm]
    rw [List.foldl_cons, hstep, ih _ (fun x hx => h x (by simp [hx]))]
    simp

/-- C3 (counterexample): two heading-free body blocks produce TWO
synthetic "Overview" sections, not exactly one. -/
theorem c3_counterexample :
    (∀ b ∈ [("p", "a"), ("p", "b")], b.1 = "p" ∨ b.1 = "li") ∧
    build_sections [("p", "a"), ("p", "b")] =
      [Section.mk 1 "Overview" "a" [], Section.mk 1 "Overview" "b" []] ∧
    (build_sections [("p", "a"), ("p", "b")]).length ≠ 1 :=
  ⟨by decide, rfl, by decide⟩

/-- C3 (amended): for every nonempty block sequence of body text blocks
and no heading blocks, `build_sections` returns one synthetic level-1
"Overview" section per body block, in order, each carrying that block's
text verbatim (hence exactly one section when there is exactly one body
block). -/
theorem c3_amended_overview_per_block (blocks : List (String × String))
    (hne : blocks ≠ []) (h : ∀ b ∈ blocks, b.1 = "p" ∨ b.1 = "li") :
    build_sections blocks = blocks.map (fun b => Section.mk 1 "Overview" b.2 []) := by
  unfold build_sections
  rw [foldl_stepBlock_textonly blocks [] h]
  rfl

theorem c3_witness :
    build_sections [("p", "hello world")] = [Section.mk 1 "Overview" "hello world" []] :=
  c3_amended_overview_per_block _ (by simp) (by decide)

/-- C4: `calculate_confidence` always lands in `[0.3, 0.95]` and is the
clamped sum base + length bonus + structure bonus − title penalty. -/
theorem c4_confidence_bounds (s : Section) (is_module : Bool) :
    0.3 ≤ calculate_confidence s is_module ∧
    calculate_confidence s is_module ≤ 0.95 ∧
    calculate_confidence s is_module =
      min 0.95 (max 0.3
        ((if is_module then (0.6 : ℚ) else 0.5) +
          min 0.2 (((pySplitWs s.text).length : ℚ) * 0.01) +
          (if s.children.isEmpty then 0 else 0.1) -
          (if (pySplitWs s.title).length < 2 then 0.1 else 0))) := by
  unfold calculate_confidence
  exact ⟨le_min (by norm_num) (le_max_left _ _), min_le_left _ _, rfl⟩

/-- C6: for a two-title input whose normalized forms score at least the
0.8 threshold, both titles map to the shorter original (ties, including
identical titles, resolve to the first, which then maps to itself). -/
theorem c6_merge_two_titles (t1 t2 : String)
    (h : (0.8 : ℚ) ≤ sm_ratio (normalize_title t1) (normalize_title t2)) :
    dictGet (merge_similar_titles [t1, t2] 0.8) t1 =
      some (if t1.length ≤ t2.length then t1 else t2) ∧
    dictGet (merge_similar_titles [t1, t2] 0.8) t2 =
      some (if t1.length ≤ t2.length then t1 else t2) := by
  set c := if t1.length ≤ t2.length then t1 else t2 with hc
  have hm : merge_similar_titles [t1, t2] 0.8 =
      dictSet (dictSet (dictSet (dictSet [] t1 t1) t2 t2) t1 c) t2 c := by
    unfold merge_similar_titles
    simp only [List.foldl, mstOuter, mstInner]
    rw [if_pos h]
  rw [hm]
  constructor
  · by_cases ht : t1 = t2
    · rw [ht]; exact dictGet_dictSet_self _ _ _
    · rw [dictGet_dictSet_ne _ _ _ _ ht]
      exact dictGet_dictSet_self _ _ _
  · exact dictGet_dictSet_self _ _ _

theorem c6_witness :
    (0.8 : ℚ) ≤ sm_ratio (normalize_title "Users") (normalize_title "Users ") ∧
    dictGet (merge_similar_titles ["Users", "Users "] 0.8) "Users" = some "Users" ∧
    dictGet (merge_similar_titles ["Users", "Users "] 0.8) "Users " = some "Users" := by
  have hr : (0.8 : ℚ) ≤ sm_ratio (normalize_title "Users") (normalize_title "Users ") := by
    have hn1 : normalize_title "Users" = "users" := rfl
    have hn2 : normalize_title "Users " = "users" := rfl
    have hm : matchTotal "users" "users" = 5 := rfl
    have hl : "users".toList.length = 5 := rfl
    rw [hn1, hn2]; unfold sm_ratio; rw [hm, hl]; norm_num
  have h1 := (c6_merge_two_titles "Users" "Users " hr).1
  have h2 := (c6_merge_two_titles "Users" "Users " hr).2
  have he : (if "Users".length ≤ "Users ".length then "Users" else "Users ") = "Users" := rfl
  rw [he] at h1 h2
  exact ⟨hr, h1, h2⟩

/-- Helper: stripping never lengthens a string. -/
theorem pyStrip_length_le (s : String) : (pyStrip s).length ≤ s.length := by
  show (((s.toList.dropWhile pyIsSpace).reverse.dropWhile pyIsSpace).reverse).length ≤
    s.toList.length
  rw [List.length_reverse]
  calc ((s.toList.dropWhile pyIsSpace).reverse.dropWhile pyIsSpace).length
      ≤ (s.toList.dropWhile pyIsSpace).reverse.length :=
        (List.dropWhile_suffix _).length_le
    _ = (s.toList.dropWhile pyIsSpace).length := List.length_reverse _
    _ ≤ s.toList.length := (List.dropWhile_suffix _).length_le

/-- C7 (counterexample): on `" aa"` (no sentence survives the filter) the
fallback is the STRIPPED 200-character prefix, not the literal prefix. -/
theorem c7_counterexample :
    pyStrip " aa" ≠ "" ∧
    (pySentences " aa").filter (fun s => 3 ≤ (pySplitWs s).length) = [] ∧
    summarize_text " aa" 2 = "aa" ∧
    summarize_text " aa" 2 ≠
      takeChars " aa" 200 ++ (if 200 < " aa".length then "..." else "") :=
  ⟨by decide, rfl, rfl, by decide⟩

/-- C7 (amended): empty/whitespace-only input yields `""`; otherwise, when
no sentence survives the ≥3-word filter, the result is the first 200
characters stripped of surrounding whitespace, plus `"..."` exactly when
the text is longer than 200 characters — hence at most 203 characters. -/
theorem c7_amended (text : String) (max_sentences : Nat) :
    (pyStrip text = "" → summarize_text text max_sentences = "") ∧
    (pyStrip text ≠ "" →
      (pySentences text).filter (fun s => 3 ≤ (pySplitWs s).length) = [] →
      summarize_text text max_sentences =
        pyStrip (takeChars text 200) ++ (if 200 < text.length then "..." else "") ∧
      (summarize_text text max_sentences).length ≤ 203) := by
  constructor
  · intro h; unfold summarize_text; rw [if_pos h]
  · intro h1 h2
    have hs : summarize_text text max_sentences =
        pyStrip (takeChars text 200) ++ (if 200 < text.length then "..." else "") := by
      unfold summarize_text
      rw [if_neg h1]
      simp only [h2, ne_eq, not_true_eq_false, if_false]
    refine ⟨hs, ?_⟩
    rw [hs, String.length_append]
    have h3 : (pyStrip (takeChars text 200)).length ≤ 200 := by
      calc (pyStrip (takeChars text 200)).length ≤ (takeChars text 200).length :=
            pyStrip_length_le _
        _ = (text.toList.take 200).length := rfl
        _ ≤ 200 := by rw [List.length_take]; exact min_le_left _ _
    have h4 : (if 200 < text.length then "..." else "").length ≤ 3 := by
      split <;> decide
    omega

theorem c7_witness :
    summarize_text "   " 2 = "" ∧
    summarize_text "hi" 2 =
      pyStrip (takeChars "hi" 200) ++ (if 200 < "hi".length then "..." else "") ∧
    (summarize_text "hi" 2).length ≤ 203 :=
  ⟨(c7_amended "   " 2).1 (by decide),
   ((c7_amended "hi" 2).2 (by decide) rfl).1,
   ((c7_amended "hi" 2).2 (by decide) rfl).2⟩


/-! ### C5: the child-level invariant of `build_sections` -/

/-- A section is `Good` when, recursively, every child has a strictly
greater nesting level than its parent. -/
inductive Good : Section → Prop where
  | intro : ∀ (lvl : Nat) (t tx : String) (cs : List Section),
      (∀ c ∈ cs, lvl < Section.level c) → (∀ c ∈ cs, Good c) →
      Good (.mk lvl t tx cs)

theorem Good.children_spec {s : Section} (h : Good s) :
    ∀ c ∈ s.children, s.level < c.level ∧ Good c := by
  cases h with
  | intro lvl t tx cs hlv hg =>
    intro c hc
    exact ⟨hlv c hc, hg c hc⟩

theorem Good.of_fields {lvl : Nat} {t tx : String} {cs : List Section}
    (h : ∀ c ∈ cs, lvl < c.level ∧ Good c) : Good (.mk lvl t tx cs) :=
  Good.intro lvl t tx cs (fun c hc => (h c hc).1) (fun c hc => (h c hc).2)

theorem good_attachChild {p f : Section} (hp : Good p) (hf : Good f)
    (hl : p.level < f.level) : Good (attachChild p f) := by
  cases p with
  | mk l t tx cs =>
    refine Good.of_fields ?_
    intro c hc
    rcases List.mem_append.1 hc with hc | hc
    · exact hp.children_spec c hc
    · rcases List.mem_singleton.1 hc with rfl
      exact ⟨hl, hf⟩

theorem attachChild_level (p f : Section) : (attachChild p f).level = p.level := by
  cases p; rfl

theorem good_set_text {lvl : Nat} {t tx tx' : String} {cs : List Section}
    (h : Good (.mk lvl t tx cs)) : Good (.mk lvl t tx' cs) :=
  Good.of_fields (by simpa [Section.children, Section.level] using h.children_spec)

/-- Invariant of the open-section stack (head innermost): every frame is
`Good` and levels strictly decrease outwards. -/
def StackInv : List Section → Prop
  | [] => True
  | [f] => Good f
  | f :: p :: rest => Good f ∧ p.level < f.level ∧ StackInv (p :: rest)

theorem closeAllAux_good (rest : List Section) :
    ∀ (root : List Section) (f : Section), (∀ s ∈ root, Good s) →
      StackInv (f :: rest) → ∀ s ∈ closeAllAux root f rest, Good s := by
  induction rest with
  | nil =>
    intro root f hroot hst s hs
    rcases List.mem_append.1 hs with hs | hs
    · exact hroot s hs
    · rcases List.mem_singleton.1 hs with rfl
      exact hst
  | cons p rest ih =>
    intro root f hroot hst s hs
    obtain ⟨hf, hpl, hrest⟩ := hst
    have hp : Good p := by
      cases rest with
      | nil => exact hrest
      | cons q qrest => exact hrest.1
    have hinv : StackInv (attachChild p f :: rest) := by
      cases rest with
      | nil => simpa [StackInv] using good_attachChild hp hf hpl
      | cons q qrest =>
        exact ⟨good_attachChild hp hf hpl, by rw [attachChild_level]; exact hrest.2.1,
          hrest.2.2⟩
    exact ih root (attachChild p f) hroot hinv s hs

theorem popGEAux_inv (lvl : Nat) (rest : List Section) :
    ∀ (root : List Section) (f : Section), (∀ s ∈ root, Good s) →
      StackInv (f :: rest) →
      (∀ s ∈ (popGEAux lvl root f rest).1, Good s) ∧
      StackInv (popGEAux lvl root f rest).2 ∧
      (∀ g, (popGEAux lvl root f rest).2.head? = some g → g.level < lvl) := by
  induction rest with
  | nil =>
    intro root f hroot hst
    unfold popGEAux
    by_cases hle : lvl ≤ f.level
    · rw [if_pos hle]
      refine ⟨?_, trivial, by simp⟩
      intro s hs
      rcases List.mem_append.1 hs with hs | hs
      · exact hroot s hs
      · rcases List.mem_singleton.1 hs with rfl; exact hst
    · rw [if_neg hle]
      exact ⟨hroot, hst, by simp; omega⟩
  | cons p rest ih =>
    intro root f hroot hst
    obtain ⟨hf, hpl, hrest⟩ := hst
    unfold popGEAux
    by_cases hle : lvl ≤ f.level
    · rw [if_pos hle]
      have hp : Good p := by
        cases rest with
        | nil => exact hrest
        | cons q qrest => exact hrest.1
      have hinv : StackInv (attachChild p f :: rest) := by
        cases rest with
        | nil => simpa [StackInv] using good_attachChild hp hf hpl
        | cons q qrest =>
          exact ⟨good_attachChild hp hf hpl, by rw [attachChild_level]; exact hrest.2.1,
            hrest.2.2⟩
      exact ih root (attachChild p f) hroot hinv
    · rw [if_neg hle]
      exact ⟨hroot, ⟨hf, hpl, hrest⟩, by simp; omega⟩

/-- `StackInv` after pushing a fresh childless section of level `lvl`
onto a (possibly empty) stack whose head has level `< lvl`. -/
theorem stackInv_push (lvl : Nat) (t : String) (stack : List Section)
    (hst : StackInv stack) (hhead : ∀ g, stack.head? = some g → g.level < lvl) :
    StackInv (Section.mk lvl t "" [] :: stack) := by
  cases stack with
  | nil => exact Good.of_fields (by simp)
  | cons g grest =>
    exact ⟨Good.of_fields (by simp), hhead g rfl, hst⟩

theorem stepBlock_inv (st : List Section × List Section) (b : String × String)
    (hroot : ∀ s ∈ st.1, Good s) (hst : StackInv st.2) :
    (∀ s ∈ (stepBlock st b).1, Good s) ∧ StackInv (stepBlock st b).2 := by
  obtain ⟨root, stack⟩ := st
  unfold stepBlock
  cases hlm : level_map b.1 with
  | some lvl =>
    simp only
    cases stack with
    | nil =>
      refine ⟨hroot, ?_⟩
      exact stackInv_push lvl b.2 [] trivial (by simp)
    | cons f rest =>
      have := popGEAux_inv lvl rest root f hroot hst
      simp only [popGE]
      exact ⟨this.1, stackInv_push lvl b.2 _ this.2.1 this.2.2⟩
  | none =>
    simp only
    cases stack with
    | nil =>
      refine ⟨?_, trivial⟩
      intro s hs
      rcases List.mem_append.1 hs with hs | hs
      · exact hroot s hs
      · rcases List.mem_singleton.1 hs with rfl
        exact Good.of_fields (by simp)
    | cons f rest =>
      cases f with
      | mk fl ft ftx fcs =>
        refine ⟨hroot, ?_⟩
        cases rest with
        | nil => exact good_set_text hst
        | cons p prest =>
          exact ⟨good_set_text hst.1, hst.2.1, hst.2.2⟩

theorem foldl_stepBlock_inv (blocks : List (String × String)) :
    ∀ st, (∀ s ∈ st.1, Good s) → StackInv st.2 →
      (∀ s ∈ (blocks.foldl stepBlock st).1, Good s) ∧
      StackInv (blocks.foldl stepBlock st).2 := by
  induction blocks with
  | nil => intro st h1 h2; exact ⟨h1, h2⟩
  | cons b rest ih =>
    intro st h1 h2
    rw [List.foldl_cons]
    have := stepBlock_inv st b h1 h2
    exact ih _ this.1 this.2

/-- C5: in every forest built by `build_sections`, each section's children
have strictly greater level than their parent (recursively, via `Good`). -/
theorem c5_children_strictly_deeper (blocks : List (String × String)) :
    (build_sections blocks).Forall Good := by
  rw [List.forall_iff_forall_mem]
  unfold build_sections
  have h := foldl_stepBlock_inv blocks ([], []) (by simp) trivial
  rcases hE : blocks.foldl stepBlock ([], []) with ⟨root, stack⟩
  rw [hE] at h
  cases stack with
  | nil => exact h.1
  | cons f rest => exact closeAllAux_good rest root f h.1 h.2

theorem c5_witness :
    (build_sections [("h1", "Alpha"), ("h2", "Beta"), ("p", "txt")]).Forall Good :=
  c5_children_strictly_deeper [("h1", "Alpha"), ("h2", "Beta"), ("p", "txt")]


/-! ### C2: crawl bounding -/

/-- Invariant lemma for the crawl loop.  `R d u` is any reachability
predicate closed under following links of fetched pages (instantiated
with `Reach` below); `a` bounds the remaining page budget. -/
theorem crawlLoop_spec (fetchFn : String → Option Page)
    (linksFn : String → Page → List String) (isHttp : String → Bool)
    (maxPages maxDepth : Nat) (R : Nat → String → Prop)
    (hR : ∀ d u pg l, R d u → fetchFn u = some pg → l ∈ linksFn u pg → R (d + 1) l) :
    ∀ (a : Nat) (queue : List (String × Nat)) (visited : List String) (pages : List Page),
      maxPages - pages.length ≤ a →
      pages.length ≤ maxPages →
      (∀ e ∈ queue, R e.2 e.1) →
      (∀ p ∈ pages, ∃ u d, d ≤ maxDepth ∧ R d u ∧ fetchFn u = some p) →
      (crawlLoop fetchFn linksFn isHttp maxPages maxDepth queue visited pages).length ≤ maxPages ∧
      ∀ p ∈ crawlLoop fetchFn linksFn isHttp maxPages maxDepth queue visited pages,
        ∃ u d, d ≤ maxDepth ∧ R d u ∧ fetchFn u = some p := by
  intro a
  induction a with
  | zero =>
    intro queue visited pages ha hlen hq hp
    cases queue with
    | nil => unfold crawlLoop; exact ⟨hlen, hp⟩
    | cons e rest =>
      obtain ⟨url, depth⟩ := e
      unfold crawlLoop
      rw [dif_neg (by omega)]
      exact ⟨hlen, hp⟩
  | succ a iha =>
    intro queue
    induction queue with
    | nil =>
      intro visited pages ha hlen hq hp
      unfold crawlLoop
      exact ⟨hlen, hp⟩
    | cons e rest ihq =>
      intro visited pages ha hlen hq hp
      obtain ⟨url, depth⟩ := e
      unfold crawlLoop
      by_cases hbudget : pages.length < maxPages
      · rw [dif_pos hbudget]
        by_cases hskip : url ∈ visited ∨ maxDepth < depth
        · rw [if_pos hskip]
          exact ihq visited pages ha hlen (fun x hx => hq x (by simp [hx])) hp
        · rw [if_neg hskip]
          by_cases hhttp : isHttp url
          · simp only [hhttp, not_true_eq_false, if_false]
            cases hfetch : fetchFn url with
            | none =>
              exact ihq (url :: visited) pages ha hlen
                (fun x hx => hq x (by simp [hx])) hp
            | some page =>
              apply iha
              · simp only [List.length_append, List.length_cons, List.length_nil]
                omega
              · simp only [List.length_append, List.length_cons, List.length_nil]
                omega
              · intro x hx
                rcases List.mem_append.1 hx with hx | hx
                · exact hq x (by simp [hx])
                · rcases List.mem_map.1 hx with ⟨l, hl, rfl⟩
                  have hl' : l ∈ linksFn url page := List.mem_of_mem_filter hl
                  have hru : R depth url := hq (url, depth) (by simp)
                  exact hR depth url page l hru hfetch hl'
              · intro p hpmem
                rcases List.mem_append.1 hpmem with hpmem | hpmem
                · exact hp p hpmem
                · rcases List.mem_singleton.1 hpmem with rfl
                  refine ⟨url, depth, by omega, hq (url, depth) (by simp), hfetch⟩
          · simp only [hhttp, not_false_eq_true, if_true]
            exact ihq (url :: visited) pages ha hlen
              (fun x hx => hq x (by simp [hx])) hp
      · rw [dif_neg hbudget]
        exact ⟨hlen, hp⟩

/-- C2: for every configuration and seed list, `crawl` returns at most
`maxPages` pages, and every returned page was fetched from a URL that was
dequeued at some depth `d ≤ maxDepth` and is reachable from the seeds in
`d` link hops — a URL first reachable only beyond `maxDepth` is never
fetched. -/
theorem c2_crawl_bounds (fetchFn : String → Option Page)
    (linksFn : String → Page → List String) (isHttp : String → Bool)
    (maxPages maxDepth : Nat) (roots : List String) :
    (crawl fetchFn linksFn isHttp maxPages maxDepth roots).length ≤ maxPages ∧
    ∀ p ∈ crawl fetchFn linksFn isHttp maxPages maxDepth roots,
      ∃ u d, d ≤ maxDepth ∧ Reach fetchFn linksFn roots d u ∧ fetchFn u = some p := by
  have h := crawlLoop_spec fetchFn linksFn isHttp maxPages maxDepth
    (Reach fetchFn linksFn roots)
    (fun d u pg l hr hf hl => Reach.step hr hf hl)
    maxPages (roots.map (fun r => (r, 0))) [] []
    (by simp) (by simp)
    (by
      intro e he
      rcases List.mem_map.1 he with ⟨r, hr, rfl⟩
      exact Reach.seed hr)
    (by simp)
  exact h

theorem c2_witness :
    (crawl (fun u => if u = "a" then some ⟨"a", "H", 200⟩ else none)
        (fun _ _ => []) (fun _ => true) 1 0 ["a"]).length ≤ 1 ∧
    ∃ u d, d ≤ 0 ∧
      Reach (fun u => if u = "a" then some (⟨"a", "H", 200⟩ : Page) else none)
        (fun _ _ => []) ["a"] d u ∧
      (fun u => if u = "a" then some (⟨"a", "H", 200⟩ : Page) else none) u =
        some ⟨"a", "H", 200⟩ := by
  have h := c2_crawl_bounds
    (fun u => if u = "a" then some (⟨"a", "H", 200⟩ : Page) else none)
    (fun _ _ => []) (fun _ => true) 1 0 ["a"]
  refine ⟨h.1, h.2 ⟨"a", "H", 200⟩ ?_⟩
  have hc : crawl (fun u => if u = "a" then some (⟨"a", "H", 200⟩ : Page) else none)
      (fun _ _ => []) (fun _ => true) 1 0 ["a"] = [⟨"a", "H", 200⟩] := by
    unfold crawl
    unfold crawlLoop
    simp
    unfold crawlLoop
    rfl
  rw [hc]
  simp


/-! ### C8: normalize_url never returns a non-http(s) URL and always
strips fragments -/

/-- A string free of `#` characters. -/
def NoHash (s : String) : Prop := ∀ c ∈ s.toList, c ≠ '#'

theorem noHash_append {a b : String} (ha : NoHash a) (hb : NoHash b) :
    NoHash (a ++ b) := by
  intro c hc
  have : c ∈ a.data ++ b.data := by
    simpa [String.data_append] using hc
  rcases List.mem_append.1 this with h | h
  · exact ha c h
  · exact hb c h

theorem noHash_mk {l : List Char} (h : ∀ c ∈ l, c ≠ '#') :
    NoHash (String.mk l) := h

theorem splitOnceAt_fst_not (sep : Char) (l : List Char) :
    ∀ c ∈ (splitOnceAt sep l).1, c ≠ sep := by
  intro c hc
  unfold splitOnceAt at hc
  split at hc
  · simpa using List.mem_takeWhile_imp hc
  · rename_i hmem
    intro hEq
    subst hEq
    exact hmem (by simpa using hc)

theorem splitOnceAt_fst_sublist (sep : Char) (l : List Char) :
    (splitOnceAt sep l).1.Sublist l := by
  unfold splitOnceAt
  split
  · exact List.takeWhile_sublist _
  · exact List.Sublist.refl _

theorem splitOnceAt_snd_sublist (sep : Char) (l : List Char) :
    (splitOnceAt sep l).2.Sublist l := by
  unfold splitOnceAt
  split
  · exact (List.tail_sublist _).trans (List.dropWhile_sublist _)
  · exact List.nil_sublist _

theorem splitOnceAt_snd_of_not_mem {sep : Char} {l : List Char} (h : sep ∉ l) :
    (splitOnceAt sep l).2 = [] := by
  unfold splitOnceAt
  rw [if_neg h]

theorem netlocSplit_fst_not_hash (rest : List Char) :
    ∀ c ∈ (netlocSplit rest).1, c ≠ '#' := by
  intro c hc
  unfold netlocSplit at hc
  split at hc
  · have := List.mem_takeWhile_imp hc
    simp only [decide_eq_true_eq] at this
    intro hEq
    subst hEq
    exact this (by decide)
  · simp at hc

theorem netlocSplit_snd_sublist (rest : List Char) :
    (netlocSplit rest).2.Sublist rest := by
  unfold netlocSplit
  split
  · exact ((List.dropWhile_sublist _).trans (List.drop_sublist _ _))
  · exact List.Sublist.refl _

theorem schemeSplit_snd_sublist (cs : List Char) (d : String) :
    (schemeSplit cs d).2.Sublist cs := by
  unfold schemeSplit
  split
  · split
    · exact List.drop_sublist _ _
    · exact List.Sublist.refl _
  · exact List.Sublist.refl _

/-- The netloc, path and query of a parse never contain `#`. -/
theorem urlsplitM_components_no_hash (s d : String) :
    NoHash (urlsplitM s d).netloc ∧ NoHash (urlsplitM s d).path ∧
    NoHash (urlsplitM s d).query := by
  unfold urlsplitM
  refine ⟨noHash_mk (netlocSplit_fst_not_hash _), noHash_mk ?_, noHash_mk ?_⟩
  · intro c hc
    have hsub := splitOnceAt_fst_sublist '?' (splitOnceAt '#' (netlocSplit (schemeSplit s.toList d).2).2).1
    exact splitOnceAt_fst_not '#' _ c (hsub.subset hc)
  · intro c hc
    have hsub := splitOnceAt_snd_sublist '?' (splitOnceAt '#' (netlocSplit (schemeSplit s.toList d).2).2).1
    exact splitOnceAt_fst_not '#' _ c (hsub.subset hc)

/-- A `#`-free input parses with an empty fragment. -/
theorem urlsplitM_fragment_of_noHash {s : String} (d : String) (h : NoHash s) :
    (urlsplitM s d).fragment = "" := by
  unfold urlsplitM
  have hsub : (netlocSplit (schemeSplit s.toList d).2).2.Sublist s.toList :=
    (netlocSplit_snd_sublist _).trans (schemeSplit_snd_sublist _ _)
  have hnm : '#' ∉ (netlocSplit (schemeSplit s.toList d).2).2 := by
    intro hmem
    exact h '#' (hsub.subset hmem) rfl
  simp only [splitOnceAt_snd_of_not_mem hnm]

theorem noHash_lit_slash : NoHash "/" := by intro c hc; simp at hc; simp [hc]

theorem noHash_lit_dslash : NoHash "//" := by
  intro c hc
  have h2 : c ∈ ['/', '/'] := hc
  simp at h2
  simp [h2]

theorem noHash_lit_colon : NoHash ":" := by intro c hc; simp at hc; simp [hc]

theorem noHash_lit_qm : NoHash "?" := by intro c hc; simp at hc; simp [hc]

theorem noHash_lit_semi : NoHash ";" := by intro c hc; simp at hc; simp [hc]

theorem noHash_ite {c : Prop} [Decidable c] {a b : String} (ha : NoHash a)
    (hb : NoHash b) : NoHash (if c then a else b) := by
  split <;> assumption

/-- Reassembly of `#`-free components with an empty fragment is
`#`-free. -/
theorem urlunsplitM_noHash {scheme netloc path query : String}
    (hs : NoHash scheme) (hn : NoHash netloc) (hp : NoHash path)
    (hq : NoHash query) : NoHash (urlunsplitM scheme netloc path query "") := by
  unfold urlunsplitM
  rw [if_neg (by simp)]
  have hu1 : NoHash (if netloc ≠ "" ∨ (path ≠ "" ∧ startsWithM path "//") then
      "//" ++ netloc ++ (if path ≠ "" ∧ ¬ startsWithM path "/" then "/" ++ path else path)
    else path) :=
    noHash_ite
      (noHash_append (noHash_append noHash_lit_dslash hn)
        (noHash_ite (noHash_append noHash_lit_slash hp) hp))
      hp
  have hu2 : NoHash (if scheme ≠ "" then scheme ++ ":" ++
      (if netloc ≠ "" ∨ (path ≠ "" ∧ startsWithM path "//") then
        "//" ++ netloc ++ (if path ≠ "" ∧ ¬ startsWithM path "/" then "/" ++ path else path)
      else path) else
      (if netloc ≠ "" ∨ (path ≠ "" ∧ startsWithM path "//") then
        "//" ++ netloc ++ (if path ≠ "" ∧ ¬ startsWithM path "/" then "/" ++ path else path)
      else path)) :=
    noHash_ite (noHash_append (noHash_append hs noHash_lit_colon) hu1) hu1
  exact noHash_ite (noHash_append (noHash_append hu2 noHash_lit_qm) hq) hu2

/-- The reassembled URL of a nonempty scheme starts `scheme:`. -/
theorem urlunsplitM_data (scheme netloc path query : String) (hs : scheme ≠ "") :
    ∃ rest, (urlunsplitM scheme netloc path query "").toList =
      scheme.toList ++ ':' :: rest := by
  unfold urlunsplitM
  rw [if_neg (by simp), if_pos hs]
  by_cases hq : query ≠ ""
  · rw [if_pos hq]
    refine ⟨(if netloc ≠ "" ∨ (path ≠ "" ∧ startsWithM path "//") then
        "//" ++ netloc ++ (if path ≠ "" ∧ ¬ startsWithM path "/" then "/" ++ path else path)
      else path).toList ++ '?' :: query.toList, ?_⟩
    simp only [String.toList, String.data_append, List.append_assoc]
    rfl
  · rw [if_neg hq]
    refine ⟨(if netloc ≠ "" ∨ (path ≠ "" ∧ startsWithM path "//") then
        "//" ++ netloc ++ (if path ≠ "" ∧ ¬ startsWithM path "/" then "/" ++ path else path)
      else path).toList, ?_⟩
    simp only [String.toList, String.data_append, List.append_assoc]
    rfl

/-- Scheme recognition on a reassembled `http:`/`https:` URL. -/
theorem schemeSplit_scheme_of_http (s0 : String) (h0 : s0 = "http" ∨ s0 = "https")
    (rest : List Char) (d : String) :
    (schemeSplit (s0.toList ++ ':' :: rest) d).1 = s0 := by
  rcases h0 with h0 | h0 <;> subst h0
  · show (schemeSplit ('h' :: 't' :: 't' :: 'p' :: ':' :: rest) d).1 = "http"
    unfold schemeSplit
    simp only [List.findIdx?_cons]
    norm_num [isSchemeChar]
    rfl
  · show (schemeSplit ('h' :: 't' :: 't' :: 'p' :: 's' :: ':' :: rest) d).1 = "https"
    unfold schemeSplit
    simp only [List.findIdx?_cons]
    norm_num [isSchemeChar]
    rfl

theorem splitParams_fst_sublist (path : List Char) :
    (splitParams path).1.Sublist path := by
  unfold splitParams
  split
  · split
    · cases hfi : List.findIdx? (fun x => decide (x = ';'))
          (List.drop (path.length - 1 -
            (List.takeWhile (fun x => decide (x ≠ '/')) path.reverse).length) path) with
      | some j => simp only [hfi]; exact List.take_sublist _ _
      | none => simp only [hfi]; exact List.Sublist.refl _
    · exact List.takeWhile_sublist _
  · exact List.Sublist.refl _

theorem splitParams_snd_sublist (path : List Char) :
    (splitParams path).2.Sublist path := by
  unfold splitParams
  split
  · split
    · cases hfi : List.findIdx? (fun x => decide (x = ';'))
          (List.drop (path.length - 1 -
            (List.takeWhile (fun x => decide (x ≠ '/')) path.reverse).length) path) with
      | some j => simp only [hfi]; exact List.drop_sublist _ _
      | none => simp only [hfi]; exact List.nil_sublist _
    · exact (List.tail_sublist _).trans (List.dropWhile_sublist _)
  · exact List.nil_sublist _

theorem noHash_http : NoHash "http" := by
  intro c hc
  have h2 : c ∈ ['h', 't', 't', 'p'] := hc
  simp at h2
  rcases h2 with h | h | h <;> simp [h]

theorem noHash_https : NoHash "https" := by
  intro c hc
  have h2 : c ∈ ['h', 't', 't', 'p', 's'] := hc
  simp at h2
  rcases h2 with h | h | h | h <;> simp [h]

theorem urlparseM_scheme (s d : String) :
    (urlparseM s d).scheme = (schemeSplit s.toList d).1 := rfl

theorem urlparseM_fragment (s d : String) :
    (urlparseM s d).fragment = (urlsplitM s d).fragment := rfl

theorem urlunparseM_eq (u : UrlParts) :
    urlunparseM u = urlunsplitM u.scheme u.netloc
      (if u.params ≠ "" then u.path ++ ";" ++ u.params else u.path) u.query u.fragment := rfl

theorem normalize_url_eq (b l : String) :
    normalize_url b l =
      (if (urlparseM (urljoinM b l) "").scheme ≠ "http" ∧
          (urlparseM (urljoinM b l) "").scheme ≠ "https" then ""
       else urlunparseM { urlparseM (urljoinM b l) "" with fragment := "" }) := rfl

/-- Core of C8, stated over an arbitrary parse result whose components
are `#`-free. -/
theorem normalize_core (p : UrlParts) (hn : NoHash p.netloc) (hp : NoHash p.path)
    (hpar : NoHash p.params) (hq : NoHash p.query) :
    (if p.scheme ≠ "http" ∧ p.scheme ≠ "https" then ""
     else urlunparseM { p with fragment := "" }) = "" ∨
    (((urlparseM (if p.scheme ≠ "http" ∧ p.scheme ≠ "https" then ""
        else urlunparseM { p with fragment := "" }) "").scheme = "http" ∨
      (urlparseM (if p.scheme ≠ "http" ∧ p.scheme ≠ "https" then ""
        else urlunparseM { p with fragment := "" }) "").scheme = "https") ∧
     (urlparseM (if p.scheme ≠ "http" ∧ p.scheme ≠ "https" then ""
        else urlunparseM { p with fragment := "" }) "").fragment = "" ∧
     NoHash (if p.scheme ≠ "http" ∧ p.scheme ≠ "https" then ""
        else urlunparseM { p with fragment := "" })) := by
  by_cases hcond : p.scheme ≠ "http" ∧ p.scheme ≠ "https"
  · rw [if_pos hcond]
    exact Or.inl rfl
  · rw [if_neg hcond]
    right
    have hsch : p.scheme = "http" ∨ p.scheme = "https" := by tauto
    have hsnh : NoHash p.scheme := by
      rcases hsch with h | h <;> rw [h]
      · exact noHash_http
      · exact noHash_https
    have hfr : ({ p with fragment := "" } : UrlParts) =
        ⟨p.scheme, p.netloc, p.path, p.params, p.query, ""⟩ := rfl
    have hNoHash_r : NoHash (urlunparseM { p with fragment := "" }) := by
      rw [hfr, urlunparseM_eq]
      exact urlunsplitM_noHash hsnh hn
        (noHash_ite (noHash_append (noHash_append hp noHash_lit_semi) hpar) hp) hq
    have hsne : p.scheme ≠ "" := by
      rcases hsch with h | h <;> rw [h] <;> simp
    obtain ⟨rest, hrl⟩ := urlunsplitM_data p.scheme p.netloc
      (if p.params ≠ "" then p.path ++ ";" ++ p.params else p.path) p.query hsne
    have hscheme : (urlparseM (urlunparseM { p with fragment := "" }) "").scheme =
        p.scheme := by
      rw [urlparseM_scheme, hfr, urlunparseM_eq]
      simp only
      rw [hrl]
      exact schemeSplit_scheme_of_http p.scheme hsch rest ""
    have hfrag : (urlparseM (urlunparseM { p with fragment := "" }) "").fragment = "" := by
      rw [urlparseM_fragment]
      exact urlsplitM_fragment_of_noHash "" hNoHash_r
    refine ⟨?_, hfrag, hNoHash_r⟩
    rw [hscheme]
    exact hsch

/-- C8: `normalize_url` either rejects (empty string) or returns a URL
whose scheme re-parses as `http`/`https` and which carries no fragment
(no `#` at all); and the concrete example from the specification. -/
theorem c8_normalize_url (base_url link : String) :
    (normalize_url base_url link = "" ∨
      (((urlparseM (normalize_url base_url link) "").scheme = "http" ∨
        (urlparseM (normalize_url base_url link) "").scheme = "https") ∧
       (urlparseM (normalize_url base_url link) "").fragment = "" ∧
       NoHash (normalize_url base_url link))) ∧
    normalize_url "https://a.com" "https://a.com/p#x" = "https://a.com/p" := by
  refine ⟨?_, rfl⟩
  have hcomp := urlsplitM_components_no_hash (urljoinM base_url link) ""
  have hpath : NoHash (urlparseM (urljoinM base_url link) "").path := by
    intro c hc
    have hsub := splitParams_fst_sublist
      (urlsplitM (urljoinM base_url link) "").path.toList
    exact hcomp.2.1 c (hsub.subset hc)
  have hparams : NoHash (urlparseM (urljoinM base_url link) "").params := by
    intro c hc
    have hsub := splitParams_snd_sublist
      (urlsplitM (urljoinM base_url link) "").path.toList
    exact hcomp.2.1 c (hsub.subset hc)
  have h := normalize_core (urlparseM (urljoinM base_url link) "")
    hcomp.1 hpath hparams hcomp.2.2
  rw [normalize_url_eq base_url link]
  exact h


/-! ### Shared lemmas for the `infer_modules` claims -/

theorem dictGet_dictSet (d : List (String × String)) (k v t : String) :
    dictGet (dictSet d k v) t = if t = k then some v else dictGet d t := by
  by_cases h : t = k
  · subst h; rw [if_pos rfl]; exact dictGet_dictSet_self d t v
  · rw [if_neg h]; exact dictGet_dictSet_ne d k v t h

theorem mem_insertDesc {m x : Module} {l : List Module} :
    x ∈ insertDesc m l ↔ x = m ∨ x ∈ l := by
  induction l with
  | nil => simp [insertDesc]
  | cons y ys ih =>
    unfold insertDesc
    split
    · simp
    · simp only [List.mem_cons, ih]
      tauto

theorem mem_sortByConfDesc {x : Module} {l : List Module} :
    x ∈ sortByConfDesc l ↔ x ∈ l := by
  have key : ∀ (l : List Module) (acc : List Module),
      x ∈ l.foldl (fun acc m => insertDesc m acc) acc ↔ x ∈ acc ∨ x ∈ l := by
    intro l
    induction l with
    | nil => simp
    | cons y ys ih =>
      intro acc
      rw [List.foldl_cons, ih, mem_insertDesc]
      simp only [List.mem_cons]
      tauto
  unfold sortByConfDesc
  rw [key]
  simp

/-- Inversion for the module-building fold of `infer_modules`. -/
theorem mem_modules_fold {pages : List (String × List (String × String))}
    {m : Module} {l : List (String × List Section)} :
    ∀ acc : List Module,
      m ∈ l.foldl
        (fun acc p =>
          match p.2 with
          | [] => acc
          | top_section :: _ =>
              let srcs := sourcesGet (mergedSources pages) p.1
              acc ++ [{ name := p.1,
                        description := module_description top_section,
                        submodules := collectSubs p.2 srcs,
                        source_urls := dedupe_preserve_order srcs,
                        confidence := calculate_confidence top_section true }]) acc →
      m ∈ acc ∨ ∃ p ∈ l, ∃ top rest, p.2 = top :: rest ∧
        m = { name := p.1,
              description := module_description top,
              submodules := collectSubs p.2 (sourcesGet (mergedSources pages) p.1),
              source_urls :=
                dedupe_preserve_order (sourcesGet (mergedSources pages) p.1),
              confidence := calculate_confidence top true } := by
  induction l with
  | nil => intro acc h; exact Or.inl h
  | cons p ps ih =>
    intro acc h
    rw [List.foldl_cons] at h
    cases hp2 : p.2 with
    | nil =>
      rw [hp2] at h
      rcases ih _ h with h | ⟨q, hq, top, rest, hqr, hm⟩
      · exact Or.inl h
      · exact Or.inr ⟨q, by simp [hq], top, rest, hqr, hm⟩
    | cons top rest =>
      rw [hp2] at h
      rcases ih _ h with h | ⟨q, hq, top', rest', hqr, hm⟩
      · rcases List.mem_append.1 h with h | h
        · exact Or.inl h
        · rcases List.mem_singleton.1 h with rfl
          exact Or.inr ⟨p, by simp, top, rest, hp2, by rw [hp2]⟩
      · exact Or.inr ⟨q, by simp [hq], top', rest', hqr, hm⟩

/-- Candidate submodule children of the contributing sections: every
child of every section, kept when `level ≤ 4` with a valid title. -/
def validChild (c : Section) : Bool :=
  decide (c.level ≤ 4) && is_valid_module_title c.title

def candidateChildren (secs : List Section) : List Section :=
  ((secs.map Section.children).flatten).filter validChild

/-- First-occurrence-wins deduplication by exact title. -/
def dedupByTitle (cs : List Section) : List Section :=
  cs.foldl (fun acc c => if acc.any (·.title = c.title) then acc else acc ++ [c]) []

theorem foldl_filter_step {α β : Type} (p : α → Bool) (f : β → α → β)
    (l : List α) : ∀ b : β,
    l.foldl (fun acc x => if p x then f acc x else acc) b =
      (l.filter p).foldl f b := by
  induction l with
  | nil => intro b; rfl
  | cons x xs ih =>
    intro b
    rw [List.foldl_cons, List.filter_cons]
    by_cases hx : p x
    · rw [if_pos hx, if_pos hx, List.foldl_cons, ih]
    · rw [if_neg hx, if_neg hx, ih]

theorem foldl_nested {α β γ : Type} (g : γ → List α) (f : β → α → β)
    (l : List γ) (b : β) :
    l.foldl (fun acc x => (g x).foldl f acc) b = ((l.map g).flatten).foldl f b := by
  rw [List.foldl_join, List.foldl_map]

theorem collectSubs_eq (secs : List Section) (srcs : List String) :
    collectSubs secs srcs =
      (dedupByTitle (candidateChildren secs)).map (fun c => mkSubmodule c srcs) := by
  have hstep : ∀ (m : List (String × Submodule)) (child : Section),
      (if child.level ≤ 4 ∧ is_valid_module_title child.title then
        (if m.any (·.1 = child.title) then m
         else m ++ [(child.title, mkSubmodule child srcs)])
       else m) =
      (if validChild child then
        (if m.any (·.1 = child.title) then m
         else m ++ [(child.title, mkSubmodule child srcs)])
       else m) := by
    intro m child
    exact if_congr (by simp [validChild]) rfl rfl
  unfold collectSubs candidateChildren dedupByTitle
  simp only [hstep]
  rw [foldl_nested Section.children]
  rw [foldl_filter_step validChild]
  have corr : ∀ (cs : List Section) (ds : List Section),
      cs.foldl
        (fun m child =>
          if m.any (·.1 = child.title) then m
          else m ++ [(child.title, mkSubmodule child srcs)])
        (ds.map (fun c => (c.title, mkSubmodule c srcs))) =
      (cs.foldl
        (fun acc c => if acc.any (·.title = c.title) then acc else acc ++ [c])
        ds).map (fun c => (c.title, mkSubmodule c srcs)) := by
    intro cs
    induction cs with
    | nil => intro ds; rfl
    | cons c cs ih =>
      intro ds
      rw [List.foldl_cons, List.foldl_cons]
      have hany : (ds.map (fun c => (c.title, mkSubmodule c srcs))).any (·.1 = c.title) =
          ds.any (·.title = c.title) := by
        induction ds with
        | nil => rfl
        | cons d ds ihd => simp [ihd]
      rw [hany]
      by_cases hd : ds.any (·.title = c.title)
      · rw [if_pos hd, if_pos hd, ih]
      · rw [if_neg hd, if_neg hd]
        have hmap : List.map (fun c => (c.title, mkSubmodule c srcs)) ds ++
            [(c.title, mkSubmodule c srcs)] =
            List.map (fun c => (c.title, mkSubmodule c srcs)) (ds ++ [c]) := by simp
        rw [hmap]
        exact ih (ds ++ [c])
  have hc := corr (((secs.map Section.children).flatten).filter validChild) []
  simp only [List.map_nil] at hc
  rw [hc, List.map_map]
  rfl

theorem any_key {β : Type} (l : List (String × β)) (k : String) :
    l.any (·.1 = k) = (l.map Prod.fst).any (· = k) := by
  induction l with
  | nil => rfl
  | cons p ps ih => simp [ih]

theorem groupAdd_keys (g : List (String × List Section)) (k : String)
    (v : List Section) :
    (groupAdd g k v).map Prod.fst =
      if g.any (·.1 = k) then g.map Prod.fst else g.map Prod.fst ++ [k] := by
  unfold groupAdd
  split
  · rw [List.map_map]
    congr 1
    funext p
    by_cases hp : p.1 = k
    · simp [hp]
    · simp [hp]
  · simp

theorem sourceUnionAdd_keys (ss : List (String × List String)) (k : String)
    (urls : List String) :
    (sourceUnionAdd ss k urls).map Prod.fst =
      if ss.any (·.1 = k) then ss.map Prod.fst else ss.map Prod.fst ++ [k] := by
  unfold sourceUnionAdd
  split
  · rw [List.map_map]
    congr 1
    funext p
    by_cases hp : p.1 = k
    · simp [hp]
    · simp [hp]
  · simp

/-- The two accumulators of `mergedPass` always carry the same keys in
the same order. -/
theorem mergedPass_keys (ms : List (String × List Section))
    (ss : List (String × List String)) (mapping : List (String × String)) :
    (mergedPass ms ss mapping).1.map Prod.fst =
      (mergedPass ms ss mapping).2.map Prod.fst := by
  unfold mergedPass
  have key : ∀ (l : List (String × List Section))
      (acc : List (String × List Section) × List (String × List String)),
      acc.1.map Prod.fst = acc.2.map Prod.fst →
      ((l.foldl (fun acc p =>
          ((groupAdd acc.1 ((dictGet mapping p.1).getD p.1) p.2),
           (sourceUnionAdd acc.2 ((dictGet mapping p.1).getD p.1) (sourcesGet ss p.1)))) acc).1.map Prod.fst =
       (l.foldl (fun acc p =>
          ((groupAdd acc.1 ((dictGet mapping p.1).getD p.1) p.2),
           (sourceUnionAdd acc.2 ((dictGet mapping p.1).getD p.1) (sourcesGet ss p.1)))) acc).2.map Prod.fst) := by
    intro l
    induction l with
    | nil => intro acc h; exact h
    | cons p ps ih =>
      intro acc h
      refine ih _ ?_
      simp only [groupAdd_keys, sourceUnionAdd_keys]
      have hcond : acc.1.any (·.1 = (dictGet mapping p.1).getD p.1) =
          acc.2.any (·.1 = (dictGet mapping p.1).getD p.1) := by
        rw [any_key, any_key, h]
      rw [hcond, h]
  exact key ms ([], []) rfl

theorem sourcesGet_mem {ss : List (String × List String)} {k : String}
    (h : (ss.map Prod.fst).any (· = k)) : (k, sourcesGet ss k) ∈ ss := by
  have h2 : (ss.find? (·.1 = k)).isSome := by
    rw [List.find?_isSome]
    simp only [List.any_eq_true, decide_eq_true_eq] at h ⊢
    rcases h with ⟨x, hx, hxe⟩
    rcases List.mem_map.1 hx with ⟨q, hq, rfl⟩
    exact ⟨q, hq, by simpa using hxe⟩
  cases hf : ss.find? (·.1 = k) with
  | none => rw [hf] at h2; simp at h2
  | some q =>
    have hq1 : q.1 = k := by simpa using List.find?_some hf
    have hqm : q ∈ ss := List.mem_of_find?_eq_some hf
    have : sourcesGet ss k = q.2 := by unfold sourcesGet; rw [hf]; rfl
    rw [this, ← hq1]
    exact hqm

/-- C9: every module's submodules are exactly the first-occurrence-unique
valid children (level ≤ 4) of the module's contributing sections, each
built from its first occurrence, and every submodule carries the module's
aggregated source-URL list — not just its own page's. -/
theorem c9_submodule_sources (pages : List (String × List (String × String)))
    (m : Module) (hm : m ∈ infer_modules pages) :
    (∀ sm ∈ m.submodules, sm.source_urls = m.source_urls) ∧
    ∃ secs srcs,
      (m.name, secs) ∈ mergedModules pages ∧
      (m.name, srcs) ∈ mergedSources pages ∧
      m.source_urls = dedupe_preserve_order srcs ∧
      m.submodules =
        (dedupByTitle (candidateChildren secs)).map (fun c => mkSubmodule c srcs) := by
  unfold infer_modules at hm
  by_cases hp : pages = []
  · rw [if_pos hp] at hm
    simp at hm
  · rw [if_neg hp] at hm
    by_cases hms : (moduleSections pages).isEmpty
    · simp only [hms, if_true] at hm
      simp at hm
    · simp only [hms, Bool.false_eq_true, if_false] at hm
      rw [mem_sortByConfDesc] at hm
      rcases mem_modules_fold [] hm with h | ⟨p, hpmem, top, rest, hrest, hmeq⟩
      · simp at h
      · subst hmeq
        constructor
        · intro sm hsm
          rw [collectSubs_eq] at hsm
          rcases List.mem_map.1 hsm with ⟨c, hc, rfl⟩
          rfl
        · refine ⟨p.2, sourcesGet (mergedSources pages) p.1, ?_, ?_, rfl,
            collectSubs_eq _ _⟩
          · exact hpmem
          · apply sourcesGet_mem
            have hkeys := mergedPass_keys (moduleSections pages) (sectionSources pages)
              (merge_similar_titles ((moduleSections pages).map (·.1)) 0.8)
            have h1 : p.1 ∈ (mergedModules pages).map Prod.fst :=
              List.mem_map_of_mem _ hpmem
            have h2 : p.1 ∈ (mergedSources pages).map Prod.fst := by
              have he : (mergedModules pages).map Prod.fst =
                  (mergedSources pages).map Prod.fst := hkeys
              rw [← he]
              exact h1
            exact List.any_eq_true.mpr ⟨p.1, h2, by simp⟩

instance : Inhabited Module :=
  ⟨{ name := "", description := "", submodules := [], source_urls := [],
     confidence := 0 }⟩

theorem headI_mem_of_ne_nil (l : List Module) (h : l ≠ []) : l.headI ∈ l := by
  cases l with
  | nil => exact absurd rfl h
  | cons x xs => simp [List.headI]

theorem c9_witness :
    ((infer_modules
        [("https://ex.com/d",
          [("h1", "User Management"), ("p", "Manage users."),
           ("h2", "Create User"), ("p", "How to create.")])]).headI ∈
      infer_modules
        [("https://ex.com/d",
          [("h1", "User Management"), ("p", "Manage users."),
           ("h2", "Create User"), ("p", "How to create.")])]) ∧
    (∀ sm ∈ (infer_modules
        [("https://ex.com/d",
          [("h1", "User Management"), ("p", "Manage users."),
           ("h2", "Create User"), ("p", "How to create.")])]).headI.submodules,
      sm.source_urls =
        (infer_modules
          [("https://ex.com/d",
            [("h1", "User Management"), ("p", "Manage users."),
             ("h2", "Create User"), ("p", "How to create.")])]).headI.source_urls) := by
  have hmem : (infer_modules
      [("https://ex.com/d",
        [("h1", "User Management"), ("p", "Manage users."),
         ("h2", "Create User"), ("p", "How to create.")])]).headI ∈
      infer_modules
        [("https://ex.com/d",
          [("h1", "User Management"), ("p", "Manage users."),
           ("h2", "Create User"), ("p", "How to create.")])] := by
    apply headI_mem_of_ne_nil
    intro hcon
    have hlen := congrArg List.length hcon
    rw [show (infer_modules
        [("https://ex.com/d",
          [("h1", "User Management"), ("p", "Manage users."),
           ("h2", "Create User"), ("p", "How to create.")])]).length = 1 from rfl] at hlen
    simp at hlen
  exact ⟨hmem, (c9_submodule_sources _ _ hmem).1⟩

/-! ### C10: canonical titles come from the input -/

theorem dictSet_isSome (d : List (String × String)) (k v t : String)
    (h : (dictGet d t).isSome) : (dictGet (dictSet d k v) t).isSome := by
  rw [dictGet_dictSet]
  split
  · rfl
  · exact h

theorem mstInner_sound (θ : ℚ) (t1 : String) (S : List String) (ht1 : t1 ∈ S) :
    ∀ (l2 : List String), (∀ x ∈ l2, x ∈ S) →
    ∀ d, (∀ t c, dictGet d t = some c → c ∈ S) →
      (∀ t c, dictGet (mstInner θ t1 l2 d) t = some c → c ∈ S) ∧
      (∀ t, (dictGet d t).isSome → (dictGet (mstInner θ t1 l2 d) t).isSome) := by
  intro l2
  induction l2 with
  | nil =>
    intro _ d hv
    exact ⟨hv, fun _ h => h⟩
  | cons t2 rest ih =>
    intro hl2 d hv
    have ht2 : t2 ∈ S := hl2 t2 (by simp)
    unfold mstInner
    by_cases hr : θ ≤ sm_ratio (normalize_title t1) (normalize_title t2)
    · rw [if_pos hr]
      set c := if t1.length ≤ t2.length then t1 else t2 with hc
      have hcS : c ∈ S := by
        rw [hc]; split
        · exact ht1
        · exact ht2
      have hv' : ∀ t x, dictGet (dictSet (dictSet d t1 c) t2 c) t = some x → x ∈ S := by
        intro t x hx
        rw [dictGet_dictSet] at hx
        split at hx
        · cases hx; exact hcS
        · rw [dictGet_dictSet] at hx
          split at hx
          · cases hx; exact hcS
          · exact hv t x hx
      refine ⟨(ih (fun x hx => hl2 x (by simp [hx])) _ hv').1, ?_⟩
      intro t hsome
      exact (ih (fun x hx => hl2 x (by simp [hx])) _ hv').2 t
        (dictSet_isSome _ _ _ _ (dictSet_isSome _ _ _ _ hsome))
    · rw [if_neg hr]
      exact ih (fun x hx => hl2 x (by simp [hx])) d hv

theorem mstOuter_sound (θ : ℚ) (S : List String) :
    ∀ (l : List String), (∀ x ∈ l, x ∈ S) →
    ∀ d, (∀ t c, dictGet d t = some c → c ∈ S) →
      (∀ t c, dictGet (mstOuter θ l d) t = some c → c ∈ S) ∧
      (∀ t, (dictGet d t).isSome → (dictGet (mstOuter θ l d) t).isSome) := by
  intro l
  induction l with
  | nil =>
    intro _ d hv
    exact ⟨hv, fun _ h => h⟩
  | cons t1 rest ih =>
    intro hl d hv
    unfold mstOuter
    have hinner := mstInner_sound θ t1 S (hl t1 (by simp)) rest
      (fun x hx => hl x (by simp [hx])) d hv
    have houter := ih (fun x hx => hl x (by simp [hx])) _ hinner.1
    exact ⟨houter.1, fun t hsome => houter.2 t (hinner.2 t hsome)⟩

theorem foldl_dictSet_isSome (l : List String) :
    ∀ (acc : List (String × String)) (t : String), (dictGet acc t).isSome →
      (dictGet (l.foldl (fun d x => dictSet d x x) acc) t).isSome := by
  induction l with
  | nil => intro acc t h; exact h
  | cons x xs ih =>
    intro acc t h
    exact ih _ t (dictSet_isSome _ _ _ _ h)

theorem initDict_total (titles : List String) :
    ∀ (acc : List (String × String)) (t : String), t ∈ titles →
      (dictGet (titles.foldl (fun d x => dictSet d x x) acc) t).isSome := by
  induction titles with
  | nil => intro _ _ h; simp at h
  | cons x xs ih =>
    intro acc t ht
    rcases List.mem_cons.1 ht with rfl | ht
    · exact foldl_dictSet_isSome xs _ t (by rw [dictGet_dictSet_self]; rfl)
    · exact ih _ t ht

theorem initDict_values (titles : List String) (S : List String)
    (hsub : ∀ x ∈ titles, x ∈ S) :
    ∀ (acc : List (String × String)),
      (∀ t c, dictGet acc t = some c → c ∈ S) →
      ∀ t c, dictGet (titles.foldl (fun d x => dictSet d x x) acc) t = some c →
        c ∈ S := by
  induction titles with
  | nil => intro acc hv; exact hv
  | cons x xs ih =>
    intro acc hv
    refine ih (fun y hy => hsub y (by simp [hy])) _ ?_
    intro t c hc
    rw [dictGet_dictSet] at hc
    split at hc
    · cases hc; exact hsub x (by simp)
    · exact hv t c hc

/-- The mapping of `merge_similar_titles` is total on its input and every
canonical value is one of the input titles. -/
theorem merge_mapping_sound (titles : List String) (θ : ℚ) :
    ∀ t ∈ titles, ∃ c, dictGet (merge_similar_titles titles θ) t = some c ∧
      c ∈ titles := by
  intro t ht
  unfold merge_similar_titles
  have hvals : ∀ t c, dictGet (titles.foldl (fun d x => dictSet d x x) []) t = some c →
      c ∈ titles :=
    initDict_values titles titles (fun _ h => h) [] (by intro t c h; simp [dictGet] at h)
  have houter := mstOuter_sound θ titles titles (fun _ h => h) _ hvals
  have hsome := houter.2 t (initDict_total titles [] t ht)
  cases hg : dictGet (mstOuter θ titles (titles.foldl (fun d x => dictSet d x x) [])) t with
  | none => rw [hg] at hsome; simp at hsome
  | some c => exact ⟨c, rfl, houter.1 t c hg⟩

theorem infer_from_sections_keys (sections : List Section) :
    ∀ k ∈ (infer_from_sections sections).map Prod.fst,
      ∃ s ∈ sections, s.title = k := by
  unfold infer_from_sections
  have key : ∀ (l : List Section) (acc : List (String × List Section)),
      (∀ k ∈ acc.map Prod.fst, ∃ s ∈ sections, s.title = k) →
      (∀ s ∈ l, s ∈ sections) →
      ∀ k ∈ ((l.foldl (fun grouped sec =>
          if is_valid_module_title sec.title then groupAdd grouped sec.title [sec]
          else grouped) acc).map Prod.fst),
        ∃ s ∈ sections, s.title = k := by
    intro l
    induction l with
    | nil => intro acc hacc _; exact hacc
    | cons sec rest ih =>
      intro acc hacc hsub
      refine ih _ ?_ (fun s hs => hsub s (by simp [hs]))
      simp only []
      by_cases hv : is_valid_module_title sec.title
      · rw [if_pos hv]
        intro k hk
        rw [groupAdd_keys] at hk
        split at hk
        · exact hacc k hk
        · rcases List.mem_append.1 hk with hk | hk
          · exact hacc k hk
          · rcases List.mem_singleton.1 hk with rfl
            exact ⟨sec, hsub sec (by simp), rfl⟩
      · rw [if_neg hv]
        exact hacc
  exact key sections [] (by simp) (fun _ h => h)

/-- Every key accumulated by `collectPass` is the title of a root section
of some input page. -/
theorem moduleSections_keys (pages : List (String × List (String × String))) :
    ∀ k ∈ (moduleSections pages).map Prod.fst,
      ∃ url blocks, (url, blocks) ∈ pages ∧ ∃ s ∈ build_sections blocks, s.title = k := by
  unfold moduleSections collectPass
  have key : ∀ (l : List (String × List (String × String)))
      (acc : List (String × List Section) × List (String × List String)),
      (∀ k ∈ acc.1.map Prod.fst,
        ∃ url blocks, (url, blocks) ∈ pages ∧ ∃ s ∈ build_sections blocks, s.title = k) →
      (∀ pg ∈ l, pg ∈ pages) →
      ∀ k ∈ ((l.foldl (fun acc page =>
          (infer_from_sections (build_sections page.2)).foldl
            (fun acc2 tg =>
              let valid_secs := tg.2.filter (fun s => s.level ≤ 2)
              if valid_secs.isEmpty then acc2
              else (groupAdd acc2.1 tg.1 valid_secs, sourceAdd acc2.2 tg.1 page.1))
            acc) acc).1.map Prod.fst),
        ∃ url blocks, (url, blocks) ∈ pages ∧ ∃ s ∈ build_sections blocks, s.title = k := by
    intro l
    induction l with
    | nil => intro acc hacc _; exact hacc
    | cons page rest ih =>
      intro acc hacc hsub
      refine ih _ ?_ (fun pg hpg => hsub pg (by simp [hpg]))
      -- one page: the inner fold over the grouped titles
      have inner : ∀ (gl : List (String × List Section))
          (acc2 : List (String × List Section) × List (String × List String)),
          (∀ k ∈ acc2.1.map Prod.fst,
            ∃ url blocks, (url, blocks) ∈ pages ∧
              ∃ s ∈ build_sections blocks, s.title = k) →
          (∀ tg ∈ gl, ∃ s ∈ build_sections page.2, s.title = tg.1) →
          ∀ k ∈ ((gl.foldl (fun acc2 tg =>
              let valid_secs := tg.2.filter (fun s => s.level ≤ 2)
              if valid_secs.isEmpty then acc2
              else (groupAdd acc2.1 tg.1 valid_secs, sourceAdd acc2.2 tg.1 page.1))
              acc2).1.map Prod.fst),
            ∃ url blocks, (url, blocks) ∈ pages ∧
              ∃ s ∈ build_sections blocks, s.title = k := by
        intro gl
        induction gl with
        | nil => intro acc2 hacc2 _; exact hacc2
        | cons tg grest ihg =>
          intro acc2 hacc2 hgl
          refine ihg _ ?_ (fun x hx => hgl x (by simp [hx]))
          simp only []
          by_cases hvempty : (tg.2.filter (fun s => s.level ≤ 2)).isEmpty
          · simp only [hvempty, if_true]
            exact hacc2
          · simp only [hvempty, Bool.false_eq_true, if_false]
            intro k hk
            rw [groupAdd_keys] at hk
            split at hk
            · exact hacc2 k hk
            · rcases List.mem_append.1 hk with hk | hk
              · exact hacc2 k hk
              · rcases List.mem_singleton.1 hk with rfl
                rcases hgl tg (by simp) with ⟨s, hs, hst⟩
                exact ⟨page.1, page.2, hsub page (by simp), s, hs, hst⟩
      refine inner (infer_from_sections (build_sections page.2)) acc hacc ?_
      intro tg htg
      have := infer_from_sections_keys (build_sections page.2) tg.1
        (List.mem_map_of_mem Prod.fst htg)
      exact this
  exact key pages ([], []) (by simp) (fun _ h => h)

/-- Every canonical (merged) module key is the canonical image of some
original grouped title. -/
theorem mergedModules_key_canonical (pages : List (String × List (String × String))) :
    ∀ k ∈ (mergedModules pages).map Prod.fst,
      ∃ orig ∈ (moduleSections pages).map Prod.fst,
        k = (dictGet (merge_similar_titles ((moduleSections pages).map (·.1)) 0.8)
              orig).getD orig := by
  unfold mergedModules mergedPass
  have key : ∀ (l : List (String × List Section))
      (acc : List (String × List Section) × List (String × List String)),
      (∀ k ∈ acc.1.map Prod.fst,
        ∃ orig ∈ (moduleSections pages).map Prod.fst,
          k = (dictGet (merge_similar_titles ((moduleSections pages).map (·.1)) 0.8)
                orig).getD orig) →
      (∀ p ∈ l, p ∈ moduleSections pages) →
      ∀ k ∈ ((l.foldl (fun acc p =>
          (groupAdd acc.1
            ((dictGet (merge_similar_titles ((moduleSections pages).map (·.1)) 0.8)
              p.1).getD p.1) p.2,
           sourceUnionAdd acc.2
            ((dictGet (merge_similar_titles ((moduleSections pages).map (·.1)) 0.8)
              p.1).getD p.1)
            (sourcesGet (sectionSources pages) p.1))) acc).1.map Prod.fst),
        ∃ orig ∈ (moduleSections pages).map Prod.fst,
          k = (dictGet (merge_similar_titles ((moduleSections pages).map (·.1)) 0.8)
                orig).getD orig := by
    intro l
    induction l with
    | nil => intro acc hacc _; exact hacc
    | cons p rest ih =>
      intro acc hacc hsub
      refine ih _ ?_ (fun q hq => hsub q (by simp [hq]))
      simp only []
      intro k hk
      rw [groupAdd_keys] at hk
      split at hk
      · exact hacc k hk
      · rcases List.mem_append.1 hk with hk | hk
        · exact hacc k hk
        · rcases List.mem_singleton.1 hk with rfl
          exact ⟨p.1, List.mem_map_of_mem Prod.fst (hsub p (by simp)), rfl⟩
  exact key (moduleSections pages) ([], []) (by simp) (fun _ h => h)

/-- C10: every canonical value of `merge_similar_titles` occurs in its
input list, and consequently every produced module name is a root-section
title that literally occurred on some input page. -/
theorem c10_module_names_from_input :
    (∀ (titles : List String) (threshold : ℚ) (t : String), t ∈ titles →
      ∃ c, dictGet (merge_similar_titles titles threshold) t = some c ∧ c ∈ titles) ∧
    (∀ (pages : List (String × List (String × String))) (m : Module),
      m ∈ infer_modules pages →
      ∃ url blocks s, (url, blocks) ∈ pages ∧ s ∈ build_sections blocks ∧
        s.title = m.name) := by
  refine ⟨fun titles θ t ht => merge_mapping_sound titles θ t ht, ?_⟩
  intro pages m hm
  unfold infer_modules at hm
  by_cases hp : pages = []
  · rw [if_pos hp] at hm
    simp at hm
  · rw [if_neg hp] at hm
    by_cases hms : (moduleSections pages).isEmpty
    · simp only [hms, if_true] at hm
      simp at hm
    · simp only [hms, Bool.false_eq_true, if_false] at hm
      rw [mem_sortByConfDesc] at hm
      rcases mem_modules_fold [] hm with h | ⟨p, hpmem, top, rest, hrest, hmeq⟩
      · simp at h
      · subst hmeq
        have h1 : p.1 ∈ (mergedModules pages).map Prod.fst :=
          List.mem_map_of_mem Prod.fst hpmem
        rcases mergedModules_key_canonical pages p.1 h1 with ⟨orig, horig, hcanon⟩
        rcases merge_mapping_sound ((moduleSections pages).map (·.1)) 0.8 orig
          (by exact horig) with ⟨c, hcget, hcmem⟩
        rw [hcget] at hcanon
        simp only [Option.getD_some] at hcanon
        rcases moduleSections_keys pages c (by exact hcmem) with
          ⟨url, blocks, hpg, s, hs, hst⟩
        refine ⟨url, blocks, s, hpg, hs, ?_⟩
        show s.title = p.1
        rw [hst, hcanon]

theorem c10_witness :
    (∃ c, dictGet (merge_similar_titles ["Alpha"] 0.8) "Alpha" = some c ∧
      c ∈ ["Alpha"]) ∧
    (∃ url blocks s,
      (url, blocks) ∈ [("https://ex.com/d",
        [("h1", "User Management"), ("p", "Manage users."),
         ("h2", "Create User"), ("p", "How to create.")])] ∧
      s ∈ build_sections blocks ∧
      s.title = (infer_modules
        [("https://ex.com/d",
          [("h1", "User Management"), ("p", "Manage users."),
           ("h2", "Create User"), ("p", "How to create.")])]).headI.name) := by
  constructor
  · exact c10_module_names_from_input.1 ["Alpha"] 0.8 "Alpha" (by simp)
  · apply c10_module_names_from_input.2
    apply headI_mem_of_ne_nil
    intro hcon
    have hlen := congrArg List.length hcon
    rw [show (infer_modules
        [("https://ex.com/d",
          [("h1", "User Management"), ("p", "Manage users."),
           ("h2", "Create User"), ("p", "How to create.")])]).length = 1 from rfl] at hlen
    simp at hlen

end Pulse
